import Mathlib

set_option maxRecDepth 400000

/-!
A verification development for the 2D bin-packing engine of the
cut-optimizer repository (function `packPieces` and its helpers, second
document of `src/unnamed/part_000`).

Embedding conventions:
* JavaScript numbers are modeled as rationals (`ℚ`).  All arithmetic the
  engine performs on the inputs used in concrete theorems below is exact
  integer/short-fraction arithmetic, on which IEEE doubles and `ℚ` agree.
* `Array.prototype.sort` with a consistent comparator is a stable sort;
  it is modeled by a stable insertion sort (`jsSort`).
* The engine's opaque display fields (`label`, `furniture`, `color`) are
  omitted from the piece records: no core logic reads them, they are only
  copied around.  The numeric and identity fields are kept.
* `wastePercent` is produced by `toFixed(1)` and read back by
  `parseFloat`; this round trip is modeled by rounding to one decimal
  (`toFixed1`).  Suggestion message strings are display-only and carry no
  data that the engine reads back; suggestions keep their `type` tag and
  sheet number.
* The `while (improved)` consolidation loop is modeled by a fuel-indexed
  recursion `consolidateGo`; the fuel `consFuel` is proved sufficient for
  every state the engine can reach (the termination theorem for C5), so
  the fueled function agrees with the source loop.
-/

namespace CutOpt

/-- A piece requested by the caller (display-only fields omitted). -/
structure Piece where
  id : Nat
  width : ℚ
  height : ℚ
  deriving Repr, DecidableEq

/-- A free rectangle `{x, y, w, h}` in one sheet's coordinate space. -/
structure FreeRect where
  x : ℚ
  y : ℚ
  w : ℚ
  h : ℚ
  deriving Repr, DecidableEq

/-- A placed piece as pushed by `tryPlace` (display-only fields omitted). -/
structure PlacedPiece where
  x : ℚ
  y : ℚ
  w : ℚ
  h : ℚ
  rotated : Bool
  id : Nat
  origW : ℚ
  origH : ℚ
  deriving Repr, DecidableEq

/-- A sheet: free rectangles, placed pieces, and accumulated used area. -/
structure Sheet where
  freeRects : List FreeRect
  pieces : List PlacedPiece
  usedArea : ℚ
  deriving Repr, DecidableEq

instance : Inhabited Sheet := ⟨⟨[], [], 0⟩⟩

/-- An unplaced entry: the piece (spread in the source) plus a reason. -/
structure Unplaced where
  piece : Piece
  reason : String
  deriving Repr, DecidableEq

/-- The engine's scalar parameters: sheet dimensions, kerf, sheet cap. -/
structure Config where
  sheetW : ℚ
  sheetH : ℚ
  kerf : ℚ
  maxSheets : ℚ
  deriving Repr, DecidableEq

/-- The three placement heuristics. -/
inductive Heuristic where
  | bssf
  | blsf
  | baf
  deriving Repr, DecidableEq

/-- A candidate score: lexicographic triple, lower is better. -/
structure Score where
  primary : ℚ
  secondary : ℚ
  positionScore : ℚ
  deriving Repr, DecidableEq

/-- `newSheet()`: one free rectangle spanning the whole sheet. -/
def newSheet (cfg : Config) : Sheet :=
  ⟨[⟨0, 0, cfg.sheetW, cfg.sheetH⟩], [], 0⟩

/-- `isContained(a, b)`: `a` lies fully inside `b`. -/
def isContained (a b : FreeRect) : Bool :=
  decide (b.x ≤ a.x) && decide (b.y ≤ a.y) &&
    decide (a.x + a.w ≤ b.x + b.w) && decide (a.y + a.h ≤ b.y + b.h)

/-- Inner loop of `pruneFreeRects` for a fixed candidate `ri`: walk the later
rectangles (`none` marks an already discarded one), discarding those contained
in `ri`; stop (JS `break`) as soon as `ri` itself is contained in a survivor.
Returns whether `ri` is kept, together with the updated later rectangles. -/
def pruneInner (ri : FreeRect) : List (Option FreeRect) → Bool × List (Option FreeRect)
  | [] => (true, [])
  | none :: t => ((pruneInner ri t).1, none :: (pruneInner ri t).2)
  | some rj :: t =>
      if isContained ri rj then (false, some rj :: t)
      else if isContained rj ri then ((pruneInner ri t).1, none :: (pruneInner ri t).2)
      else ((pruneInner ri t).1, some rj :: (pruneInner ri t).2)

/-- Outer loop of `pruneFreeRects`: visit rectangles left to right, keeping a
rectangle exactly when the inner scan keeps it; discarded markers persist.
Structural recursion on a fuel that the wrapper `pruneOuter` instantiates to
the list length (exact, since `pruneInner` preserves length). -/
def pruneOuterGo : Nat → List (Option FreeRect) → List FreeRect
  | _, [] => []
  | 0, _ => []
  | n + 1, none :: t => pruneOuterGo n t
  | n + 1, some ri :: t =>
      if (pruneInner ri t).1 then ri :: pruneOuterGo n (pruneInner ri t).2
      else pruneOuterGo n (pruneInner ri t).2

/-- The outer prune loop at its exact fuel. -/
def pruneOuter (l : List (Option FreeRect)) : List FreeRect :=
  pruneOuterGo l.length l

/-- `pruneFreeRects(sheet)`: remove every free rectangle fully contained in
another (the keep-array algorithm of the source). -/
def pruneFreeRects (sheet : Sheet) : Sheet :=
  { sheet with freeRects := pruneOuter (sheet.freeRects.map some) }

/-- The rectangle splitting step of `placeRect`, before the degenerate filter
and the prune: subtract the consumed area `[x, px2) × [y, py2)` from every
free rectangle it intersects, producing up to four remainders. -/
def placeRectRaw (cfg : Config) (rects : List FreeRect) (x y w h : ℚ) : List FreeRect :=
  rects.flatMap fun r =>
    if r.x + r.w ≤ x ∨ min (x + w + cfg.kerf) cfg.sheetW ≤ r.x ∨ r.y + r.h ≤ y ∨
        min (y + h + cfg.kerf) cfg.sheetH ≤ r.y then [r]
    else
      (if r.x < x then [⟨r.x, r.y, x - r.x, r.h⟩] else []) ++
      (if min (x + w + cfg.kerf) cfg.sheetW < r.x + r.w then
        [⟨min (x + w + cfg.kerf) cfg.sheetW, r.y,
          r.x + r.w - min (x + w + cfg.kerf) cfg.sheetW, r.h⟩] else []) ++
      (if r.y < y then [⟨r.x, r.y, r.w, y - r.y⟩] else []) ++
      (if min (y + h + cfg.kerf) cfg.sheetH < r.y + r.h then
        [⟨r.x, min (y + h + cfg.kerf) cfg.sheetH, r.w,
          r.y + r.h - min (y + h + cfg.kerf) cfg.sheetH⟩] else [])

/-- `placeRect(sheet, x, y, w, h)`: consume the kerf-inflated footprint from
the free set, discard degenerate remainders (`w > 0.5 && h > 0.5` kept), then
prune contained rectangles. -/
def placeRect (cfg : Config) (sheet : Sheet) (x y w h : ℚ) : Sheet :=
  pruneFreeRects
    { sheet with
        freeRects := (placeRectRaw cfg sheet.freeRects x y w h).filter fun r =>
          decide (1/2 < r.w) && decide (1/2 < r.h) }

/-- `scoreFit(r, pw, ph, heuristic)`: the lexicographic candidate score. -/
def scoreFit (cfg : Config) (r : FreeRect) (pw ph : ℚ) (heu : Heuristic) : Score :=
  let leftoverW := r.w - pw
  let leftoverH := r.h - ph
  let positionScore := r.y * cfg.sheetW + r.x
  match heu with
  | .bssf => ⟨min leftoverW leftoverH, max leftoverW leftoverH, positionScore⟩
  | .blsf => ⟨max leftoverW leftoverH, min leftoverW leftoverH, positionScore⟩
  | .baf =>
      ⟨leftoverW * leftoverH + leftoverW + leftoverH, min leftoverW leftoverH,
        positionScore⟩

/-- `isBetterScore(a, b)`: lexicographic comparison, lower is better. -/
def isBetterScore (a b : Score) : Bool :=
  if a.primary ≠ b.primary then decide (a.primary < b.primary)
  else if a.secondary ≠ b.secondary then decide (a.secondary < b.secondary)
  else decide (a.positionScore < b.positionScore)

/-- The running best candidate of `findBestFit`:
score, rectangle, placed width, placed height. -/
abbrev FitState := Option (Score × FreeRect × ℚ × ℚ)

/-- Fold a new candidate into the running best (strict improvement wins). -/
def considerCandidate (st : FitState) (sc : Score) (r : FreeRect) (w h : ℚ) : FitState :=
  match st with
  | none => some (sc, r, w, h)
  | some (bs, br, bw, bh) =>
      if isBetterScore sc bs then some (sc, r, w, h) else some (bs, br, bw, bh)

/-- One iteration of the `findBestFit` loop body for a free rectangle `r`:
try the normal orientation, then the rotated one (only when `pw ≠ ph`). -/
def fbfStepNormal (cfg : Config) (pw ph : ℚ) (heu : Heuristic) (st : FitState) (r : FreeRect) :
    FitState :=
  if pw ≤ r.w ∧ ph ≤ r.h then considerCandidate st (scoreFit cfg r pw ph heu) r pw ph
  else st

def fbfStep (cfg : Config) (pw ph : ℚ) (heu : Heuristic) (st : FitState) (r : FreeRect) :
    FitState :=
  if ph ≤ r.w ∧ pw ≤ r.h ∧ pw ≠ ph then
    considerCandidate (fbfStepNormal cfg pw ph heu st r) (scoreFit cfg r ph pw heu) r ph pw
  else fbfStepNormal cfg pw ph heu st r

/-- The result record of `findBestFit`. -/
structure Fit where
  rect : FreeRect
  w : ℚ
  h : ℚ
  rotated : Bool
  score : Score
  deriving Repr, DecidableEq

/-- `findBestFit(sheet, pw, ph, heuristic)`: best candidate over all free
rectangles and both orientations; `none` when nothing fits. -/
def findBestFit (cfg : Config) (sheet : Sheet) (pw ph : ℚ) (heu : Heuristic) : Option Fit :=
  match sheet.freeRects.foldl (fbfStep cfg pw ph heu) none with
  | none => none
  | some (bs, br, bw, bh) => some ⟨br, bw, bh, decide (bw ≠ pw), bs⟩

/-- `tryPlace(piece, sheet, heuristic)`: place the piece at the best fit's
rectangle corner, append it, add its (unkerfed) area, and update the free
set; `none` models the `false` return. -/
def tryPlace (cfg : Config) (piece : Piece) (sheet : Sheet) (heu : Heuristic) : Option Sheet :=
  match findBestFit cfg sheet piece.width piece.height heu with
  | none => none
  | some fit =>
      let placed : PlacedPiece :=
        ⟨fit.rect.x, fit.rect.y, fit.w, fit.h, fit.rotated, piece.id, piece.width, piece.height⟩
      some (placeRect cfg
        { sheet with
            pieces := sheet.pieces ++ [placed],
            usedArea := sheet.usedArea + fit.w * fit.h }
        fit.rect.x fit.rect.y fit.w fit.h)

/-- The accumulating state of one `runStrategy` call. -/
structure StratResult where
  sheets : List Sheet
  unplaced : List Unplaced
  deriving Repr, DecidableEq

/-- The scan over existing sheets: running best `(score, sheet index)`. -/
def scanStep (cfg : Config) (pw ph : ℚ) (heu : Heuristic) (st : Option (Score × Nat))
    (p : Nat × Sheet) : Option (Score × Nat) :=
  match findBestFit cfg p.2 pw ph heu with
  | none => st
  | some fit =>
      match st with
      | none => some (fit.score, p.1)
      | some (bs, bi) => if isBetterScore fit.score bs then some (fit.score, p.1)
                         else some (bs, bi)

/-- Pick the open sheet with the globally best fit score for the piece. -/
def chooseSheet (cfg : Config) (sheets : List Sheet) (pw ph : ℚ) (heu : Heuristic) :
    Option (Score × Nat) :=
  sheets.enum.foldl (scanStep cfg pw ph heu) none

/-- The per-piece body of the `runStrategy` loop. -/
def stratStep (cfg : Config) (heu : Heuristic) (st : StratResult) (piece : Piece) :
    StratResult :=
  if (piece.width ≤ cfg.sheetW ∧ piece.height ≤ cfg.sheetH) ∨
      (piece.height ≤ cfg.sheetW ∧ piece.width ≤ cfg.sheetH) then
    match chooseSheet cfg st.sheets piece.width piece.height heu with
    | some (_, i) =>
        -- the source ignores this `tryPlace` return value; it cannot be
        -- `none` here since the scan just found a fit on this sheet
        match tryPlace cfg piece (st.sheets.getD i default) heu with
        | some sh => { st with sheets := st.sheets.set i sh }
        | none => st
    | none =>
        if cfg.maxSheets ≤ (st.sheets.length : ℚ) then
          { st with unplaced := st.unplaced ++ [⟨piece, "No sheets remaining"⟩] }
        else
          match tryPlace cfg piece (newSheet cfg) heu with
          | some s => { st with sheets := st.sheets ++ [s] }
          | none => { st with unplaced := st.unplaced ++ [⟨piece, "Could not place"⟩] }
  else
    { st with unplaced := st.unplaced ++ [⟨piece, "Too large for sheet"⟩] }

/-- `runStrategy(sorted, heuristic)`: greedy packing of the sorted pieces,
starting from zero sheets. -/
def runStrategy (cfg : Config) (sorted : List Piece) (heu : Heuristic) : StratResult :=
  sorted.foldl (stratStep cfg heu) ⟨[], []⟩

/-- Stable insertion: `x` goes before the first element `y` with
`cmp x y < 0`, hence after every element it ties with. -/
def insertSorted {α : Type} (cmp : α → α → ℚ) (x : α) : List α → List α
  | [] => [x]
  | y :: ys => if cmp x y < 0 then x :: y :: ys else y :: insertSorted cmp x ys

/-- A stable sort by a JS-style numeric comparator, modeling
`Array.prototype.sort` (stable for the engine's consistent comparators). -/
def jsSort {α : Type} (cmp : α → α → ℚ) (l : List α) : List α :=
  l.foldl (fun acc x => insertSorted cmp x acc) []

/-- Sort strategy 1: area descending, then longest side descending. -/
def cmpArea (a b : Piece) : ℚ :=
  let d := b.width * b.height - a.width * a.height
  if d ≠ 0 then d else max b.width b.height - max a.width a.height

/-- Sort strategy 2: perimeter descending, then area descending. -/
def cmpPerimeter (a b : Piece) : ℚ :=
  let d := (b.width + b.height) - (a.width + a.height)
  if d ≠ 0 then d else b.width * b.height - a.width * a.height

/-- Sort strategy 3: longest side descending, then area descending. -/
def cmpLongest (a b : Piece) : ℚ :=
  let d := max b.width b.height - max a.width a.height
  if d ≠ 0 then d else b.width * b.height - a.width * a.height

/-- Sort strategy 4: longest side descending, then shortest side descending. -/
def cmpLongShort (a b : Piece) : ℚ :=
  let d := max b.width b.height - max a.width a.height
  if d ≠ 0 then d else min b.width b.height - min a.width a.height

/-- The fixed list of four sort strategies, in source order. -/
def sortStrategies : List (Piece → Piece → ℚ) :=
  [cmpArea, cmpPerimeter, cmpLongest, cmpLongShort]

/-- The fixed list of three heuristics, in source order. -/
def heuristics : List Heuristic := [.bssf, .blsf, .baf]

/-- The comparison key of `resultScore`. -/
structure ResultScore where
  sheetCount : Nat
  waste : ℚ
  unplacedCount : Nat
  deriving Repr, DecidableEq

/-- `resultScore(r)`: sheet count, waste ratio and unplaced count. -/
def resultScore (cfg : Config) (r : StratResult) : ResultScore :=
  let totalArea := cfg.sheetW * cfg.sheetH
  let totalUsed := r.sheets.foldl (fun s sh => s + sh.usedArea) 0
  let totalSheetArea := (r.sheets.length : ℚ) * totalArea
  let waste := if 0 < totalSheetArea then 1 - totalUsed / totalSheetArea else 0
  ⟨r.sheets.length, waste, r.unplaced.length⟩

/-- `isBetterResult(a, b)`: fewer unplaced, then fewer sheets, then less
waste. -/
def isBetterResult (cfg : Config) (a b : StratResult) : Bool :=
  let sa := resultScore cfg a
  let sb := resultScore cfg b
  if sa.unplacedCount ≠ sb.unplacedCount then decide (sa.unplacedCount < sb.unplacedCount)
  else if sa.sheetCount ≠ sb.sheetCount then decide (sa.sheetCount < sb.sheetCount)
  else decide (sa.waste < sb.waste)

/-- The twelve strategy attempts, in source iteration order (sorts outer,
heuristics inner), each run on its own sorted copy from zero sheets. -/
def allResults (cfg : Config) (pieces : List Piece) : List StratResult :=
  sortStrategies.flatMap fun sortFn =>
    heuristics.map fun heu => runStrategy cfg (jsSort sortFn pieces) heu

/-- One step of the running-best fold of the strategy grid loop. -/
def pickStep (cfg : Config) (best : Option StratResult) (r : StratResult) :
    Option StratResult :=
  match best with
  | none => some r
  | some b => if isBetterResult cfg r b then some r else some b

/-- The running-best fold of the strategy grid loop. -/
def pickBest (cfg : Config) (rs : List StratResult) : Option StratResult :=
  rs.foldl (pickStep cfg) none

/-- The throwaway piece record built from a placed piece during
consolidation (`fakePiece` in the source). -/
def fakePiece (p : PlacedPiece) : Piece := ⟨p.id, p.origW, p.origH⟩

/-- Scan the earlier sheets (indices in order) for the first one the piece
fits; place it there.  The source marks the piece moved as soon as
`findBestFit` succeeds. -/
def tryMoveAux (cfg : Config) (fp : Piece) (sheets : List Sheet) :
    List Nat → Option (List Sheet)
  | [] => none
  | si :: rest =>
      if (findBestFit cfg (sheets.getD si default) fp.width fp.height .bssf).isSome then
        some (match tryPlace cfg fp (sheets.getD si default) .bssf with
              | some sh2 => sheets.set si sh2
              | none => sheets)
      else tryMoveAux cfg fp sheets rest

/-- One consolidation move pass over the last sheet's pieces: try to move
each into an earlier sheet (first fitting sheet wins); returns the updated
sheets and the per-piece moved flags. -/
def movePass (cfg : Config) : List PlacedPiece → List Sheet → List Sheet × List Bool
  | [], sheets => (sheets, [])
  | p :: ps, sheets =>
      match tryMoveAux cfg (fakePiece p) sheets (List.range (sheets.length - 1)) with
      | some sheets2 =>
          let r := movePass cfg ps sheets2
          (r.1, true :: r.2)
      | none =>
          let r := movePass cfg ps sheets
          (r.1, false :: r.2)

/-- Rebuild the last sheet from empty, re-inserting the pieces that did not
move, with BSSF; a failed re-insertion is ignored, as in the source (the
piece is silently dropped). -/
def rebuildSheet (cfg : Config) (remaining : List PlacedPiece) : Sheet :=
  remaining.foldl
    (fun sh p =>
      match tryPlace cfg (fakePiece p) sh .bssf with
      | some sh2 => sh2
      | none => sh)
    (newSheet cfg)

/-- The sheet comparator of the consolidator: used area descending. -/
def sheetCmp (a b : Sheet) : ℚ := b.usedArea - a.usedArea

/-- One iteration of the `while (improved)` consolidation loop body (after
the `length ≤ 1` guard): sort sheets, run the move pass over the last
sheet's pieces, then drop or rebuild the last sheet.  Returns the new sheet
list and the `improved` flag. -/
def consIter (cfg : Config) (sheets : List Sheet) : List Sheet × Bool :=
  match (jsSort sheetCmp sheets).getLast? with
  | none => (jsSort sheetCmp sheets, false)
  | some lastSheet =>
      if ((movePass cfg lastSheet.pieces (jsSort sheetCmp sheets)).2.filter id).length = 0 then
        (jsSort sheetCmp sheets, false)
      else if ((movePass cfg lastSheet.pieces (jsSort sheetCmp sheets)).2.filter id).length
          = lastSheet.pieces.length then
        ((movePass cfg lastSheet.pieces (jsSort sheetCmp sheets)).1.dropLast, true)
      else
        ((movePass cfg lastSheet.pieces (jsSort sheetCmp sheets)).1.dropLast ++
          [rebuildSheet cfg ((lastSheet.pieces.zip
            (movePass cfg lastSheet.pieces (jsSort sheetCmp sheets)).2).filterMap fun pf =>
              if pf.2 then none else some pf.1)], true)

/-- The total number of placed pieces across a sheet list. -/
def totalPieces (sheets : List Sheet) : Nat :=
  (sheets.map fun s => s.pieces.length).sum

/-- The piece count of the sheet that ends up last after the consolidation
sort (0 when there are no sheets). -/
def lastSortedCount (sheets : List Sheet) : Nat :=
  match (jsSort sheetCmp sheets).getLast? with
  | none => 0
  | some s => s.pieces.length

/-- The termination measure of the consolidation loop: lexicographic
(sheet count, last-sheet piece count) flattened into one natural. -/
def consMeasure (sheets : List Sheet) : Nat :=
  sheets.length * (totalPieces sheets + 1) + lastSortedCount sheets

/-- The fuel used for the consolidation loop; proved sufficient for every
state the engine reaches. -/
def consFuel (sheets : List Sheet) : Nat := consMeasure sheets + 1

/-- The fueled consolidation loop: `none` on fuel exhaustion, otherwise the
sheet list at loop exit. -/
def consolidateGo (cfg : Config) : Nat → List Sheet → Option (List Sheet)
  | 0, _ => none
  | n + 1, sheets =>
      if sheets.length ≤ 1 then some sheets
      else if (consIter cfg sheets).2 then consolidateGo cfg n (consIter cfg sheets).1
      else some (consIter cfg sheets).1

/-- `consolidateSheets(result)`: run the loop with the proven-sufficient
fuel (the `none` fallback is unreachable for engine states). -/
def consolidateSheets (cfg : Config) (r : StratResult) : StratResult :=
  match consolidateGo cfg (consFuel r.sheets) r.sheets with
  | some s => { r with sheets := s }
  | none => r

/-- The `largestFree` record of a finalized sheet; the initial sentinel of
the source has no `x`/`y` fields, modeled by `pos = none`. -/
structure LargestFree where
  w : ℚ
  h : ℚ
  area : ℚ
  pos : Option (ℚ × ℚ)
  deriving Repr, DecidableEq

/-- The largest-free-rectangle fold of the finalization step. -/
def largestFreeOf (rects : List FreeRect) : LargestFree :=
  rects.foldl
    (fun acc r =>
      if acc.area < r.w * r.h then ⟨r.w, r.h, r.w * r.h, some (r.x, r.y)⟩ else acc)
    ⟨0, 0, 0, none⟩

/-- `computeActualFreeArea(freeRects, sheetW, sheetH)`. -/
def computeActualFreeArea (freeRects : List FreeRect) (sheetW sheetH : ℚ) : ℚ :=
  min (freeRects.foldl (fun s r => s + r.w * r.h) 0) (sheetW * sheetH)

/-- The value of the `toFixed(1)`/`parseFloat` round trip: the input rounded
to one decimal place. -/
def toFixed1 (q : ℚ) : ℚ := (⌊q * 10 + 1 / 2⌋ : ℚ) / 10

/-- A sheet of the final output. -/
structure OutSheet where
  pieces : List PlacedPiece
  wastePercent : ℚ
  usedArea : ℚ
  freeRects : List FreeRect
  largestFree : LargestFree
  totalFreeArea : ℚ
  deriving Repr, DecidableEq

instance : Inhabited OutSheet := ⟨⟨[], 0, 0, [], ⟨0, 0, 0, none⟩, 0⟩⟩

/-- The per-sheet finalization map of `packPieces`. -/
def finalizeSheet (cfg : Config) (s : Sheet) : OutSheet :=
  let totalArea := cfg.sheetW * cfg.sheetH
  ⟨s.pieces, toFixed1 ((1 - s.usedArea / totalArea) * 100), s.usedArea, s.freeRects,
    largestFreeOf s.freeRects, computeActualFreeArea s.freeRects cfg.sheetW cfg.sheetH⟩

/-- An advisory suggestion: the authoritative `type` tag and the 1-based
sheet number (0 for the whole-result efficiency hint); the display-only
message string is omitted. -/
structure Suggestion where
  type : String
  sheet : Nat
  deriving Repr, DecidableEq

/-- The deduplicated list of `floor(w) x floor(h)` gap examples with both
dimensions at least 200. -/
def fillGapExamples (rects : List FreeRect) : List (ℤ × ℤ) :=
  rects.foldl
    (fun acc r =>
      if 200 ≤ r.w ∧ 200 ≤ r.h then
        let key : ℤ × ℤ := (⌊r.w⌋, ⌊r.h⌋)
        if key ∈ acc then acc else acc ++ [key]
      else acc)
    []

/-- `generateSuggestions(sheets, sheetW, sheetH, unplaced)` (the `unplaced`
argument is never read by the source either). -/
def generateSuggestions (cfg : Config) (sheets : List OutSheet) (_unplaced : List Unplaced) :
    List Suggestion :=
  let totalArea := cfg.sheetW * cfg.sheetH
  let perSheet := sheets.enum.flatMap fun p =>
    let idx := p.1
    let sheet := p.2
    let wasteNum := sheet.wastePercent
    if 0 < sheet.largestFree.area then
      (if 15 < wasteNum then
        (if fillGapExamples sheet.freeRects ≠ [] then [⟨"fill_gaps", idx + 1⟩] else [])
      else []) ++
      (if idx < sheets.length - 1 ∧ 30 < wasteNum then [⟨"consolidate", idx + 1⟩] else [])
    else []
  let lastTip :=
    match sheets.getLast? with
    | none => []
    | some lastSheet =>
        if 20 < lastSheet.wastePercent then [⟨"future_use", sheets.length⟩] else []
  let efficiency :=
    if 1 < sheets.length then
      let totalUsed := sheets.foldl (fun s sh => s + sh.usedArea) 0
      let minSheetsNeeded := ⌈totalUsed / totalArea⌉
      if minSheetsNeeded < (sheets.length : ℤ) then [⟨"efficiency", 0⟩] else []
    else []
  perSheet ++ lastTip ++ efficiency

/-- The full result of `packPieces`. -/
structure PackingResult where
  sheets : List OutSheet
  unplaced : List Unplaced
  suggestions : List Suggestion
  deriving Repr, DecidableEq

/-- `packPieces(pieces, sheetW, sheetH, kerf, maxSheets)`: the engine entry
point — empty-input guard, the 12-attempt strategy grid, the best-result
fold, consolidation when more than one sheet, and finalization. -/
def packPieces (pieces : List Piece) (sheetW sheetH kerf maxSheets : ℚ) : PackingResult :=
  if pieces.length = 0 then ⟨[], [], []⟩
  else
    let cfg : Config := ⟨sheetW, sheetH, kerf, maxSheets⟩
    let best := (pickBest cfg (allResults cfg pieces)).getD ⟨[], []⟩
    let best2 := if 1 < best.sheets.length then consolidateSheets cfg best else best
    let outSheets := best2.sheets.map (finalizeSheet cfg)
    ⟨outSheets, best2.unplaced, generateSuggestions cfg outSheets best2.unplaced⟩

/-- The value `packPieces` binds to `bestResult` after the strategy grid
loop (the 12-attempt winner; the `getD` default is never used since the
grid is nonempty). -/
def winner (cfg : Config) (pieces : List Piece) : StratResult :=
  (pickBest cfg (allResults cfg pieces)).getD ⟨[], []⟩

/-- The value of `bestResult` after the conditional consolidation step of
`packPieces`. -/
def finalResult (cfg : Config) (pieces : List Piece) : StratResult :=
  if 1 < (winner cfg pieces).sheets.length then consolidateSheets cfg (winner cfg pieces)
  else winner cfg pieces

/-! ### Derived geometric notions used by the claims -/

/-- Right edge of a placed piece's kerf-inflated footprint, clipped to the
sheet (the `px2` of `placeRect`). -/
def footX2 (cfg : Config) (p : PlacedPiece) : ℚ := min (p.x + p.w + cfg.kerf) cfg.sheetW

/-- Bottom edge of a placed piece's kerf-inflated footprint, clipped to the
sheet (the `py2` of `placeRect`). -/
def footY2 (cfg : Config) (p : PlacedPiece) : ℚ := min (p.y + p.h + cfg.kerf) cfg.sheetH

/-- The kerf-inflated, sheet-clipped footprints of two placed pieces
intersect (in a region of positive area). -/
def footOverlap (cfg : Config) (p q : PlacedPiece) : Prop :=
  p.x < footX2 cfg q ∧ q.x < footX2 cfg p ∧ p.y < footY2 cfg q ∧ q.y < footY2 cfg p

/-- The body rectangles `[x, x+w] × [y, y+h]` of two placed pieces intersect
in a region of positive area. -/
def bodiesOverlap (p q : PlacedPiece) : Prop :=
  p.x < q.x + q.w ∧ q.x < p.x + p.w ∧ p.y < q.y + q.h ∧ q.y < p.y + p.h

/-- A placed piece's body rectangle lies within the sheet bounds. -/
def inBounds (cfg : Config) (p : PlacedPiece) : Prop :=
  0 ≤ p.x ∧ 0 ≤ p.y ∧ p.x + p.w ≤ cfg.sheetW ∧ p.y + p.h ≤ cfg.sheetH

/-- Modelled from the spec: the waste ratio
`1 − totalUsedArea / (sheetCount × sheetArea)` of the strategy-selection
order (section 4.4). -/
def specWaste (cfg : Config) (r : StratResult) : ℚ :=
  1 - (r.sheets.foldl (fun s sh => s + sh.usedArea) 0) /
    ((r.sheets.length : ℚ) * (cfg.sheetW * cfg.sheetH))

/-- Modelled from the spec: the keep-condition it states for remainders of
an insertion ("remainders with width and height of at least 0.5 are
kept"). The source keeps a remainder only when both dimensions are
strictly greater than 0.5. -/
def keptAtLeastHalf (r : FreeRect) : Prop := 1 / 2 ≤ r.w ∧ 1 / 2 ≤ r.h

instance (cfg : Config) (p q : PlacedPiece) : Decidable (footOverlap cfg p q) := by
  unfold footOverlap
  infer_instance

instance (p q : PlacedPiece) : Decidable (bodiesOverlap p q) := by
  unfold bodiesOverlap
  infer_instance

instance (cfg : Config) (p : PlacedPiece) : Decidable (inBounds cfg p) := by
  unfold inBounds
  infer_instance

instance (r : FreeRect) : Decidable (keptAtLeastHalf r) := by
  unfold keptAtLeastHalf
  infer_instance

/-- The body rectangle of a placed piece. -/
def body (p : PlacedPiece) : FreeRect := ⟨p.x, p.y, p.w, p.h⟩

/-- `a` lies inside `b` (the propositional form of `isContained`). -/
def rectInside (a b : FreeRect) : Prop :=
  b.x ≤ a.x ∧ b.y ≤ a.y ∧ a.x + a.w ≤ b.x + b.w ∧ a.y + a.h ≤ b.y + b.h

/-- The rectangle `r` misses the region `[x1, x2) × [y1, y2)` (the disjoint
test of `placeRect`). -/
def rectAvoids (r : FreeRect) (x1 x2 y1 y2 : ℚ) : Prop :=
  r.x + r.w ≤ x1 ∨ x2 ≤ r.x ∨ r.y + r.h ≤ y1 ∨ y2 ≤ r.y

/-- The rectangle lies within the sheet `[0, sheetW] × [0, sheetH]`. -/
def rectInSheet (cfg : Config) (r : FreeRect) : Prop :=
  0 ≤ r.x ∧ 0 ≤ r.y ∧ r.x + r.w ≤ cfg.sheetW ∧ r.y + r.h ≤ cfg.sheetH

/-- The geometric invariant of one sheet: free rectangles lie in the sheet;
placed pieces lie in the sheet with positive placed and original
dimensions; every free rectangle avoids every placed piece's clipped
kerf-inflated footprint; and every later piece's body avoids every earlier
piece's clipped kerf-inflated footprint. -/
def SheetInv (cfg : Config) (s : Sheet) : Prop :=
  (∀ r ∈ s.freeRects, rectInSheet cfg r) ∧
  (∀ p ∈ s.pieces, inBounds cfg p ∧ 0 < p.w ∧ 0 < p.h ∧ 0 < p.origW ∧ 0 < p.origH) ∧
  (∀ r ∈ s.freeRects, ∀ p ∈ s.pieces, rectAvoids r p.x (footX2 cfg p) p.y (footY2 cfg p)) ∧
  List.Pairwise (fun p q => rectAvoids (body q) p.x (footX2 cfg p) p.y (footY2 cfg p))
    s.pieces

/-- Neither orientation of a `pw × ph` piece fits the free rectangle `r`
(the rotated orientation is only an option when `pw ≠ ph`). -/
def noOrientFits (pw ph : ℚ) (r : FreeRect) : Prop :=
  ¬(pw ≤ r.w ∧ ph ≤ r.h) ∧ ¬(ph ≤ r.w ∧ pw ≤ r.h ∧ pw ≠ ph)

/-- No orientation of the piece on `r` scores strictly better than `bs`. -/
def noBetterCand (cfg : Config) (pw ph : ℚ) (heu : Heuristic) (r : FreeRect) (bs : Score) :
    Prop :=
  (pw ≤ r.w ∧ ph ≤ r.h → isBetterScore (scoreFit cfg r pw ph heu) bs = false) ∧
  (ph ≤ r.w ∧ pw ≤ r.h ∧ pw ≠ ph → isBetterScore (scoreFit cfg r ph pw heu) bs = false)

/-- `(bw, bh)` is a legal, fitting orientation of a `pw × ph` piece on `br`. -/
def orientOk (pw ph : ℚ) (br : FreeRect) (bw bh : ℚ) : Prop :=
  (bw = pw ∧ bh = ph ∧ pw ≤ br.w ∧ ph ≤ br.h) ∨
  (bw = ph ∧ bh = pw ∧ pw ≠ ph ∧ ph ≤ br.w ∧ pw ≤ br.h)

/-- The invariant of the `findBestFit` fold, relative to the set `M` of free
rectangles already scanned: an empty state means nothing fit so far, and a
candidate state is a legal fitting orientation on a scanned rectangle whose
score no scanned candidate strictly beats. -/
def fbfInv (cfg : Config) (pw ph : ℚ) (heu : Heuristic) (M : FreeRect → Prop) :
    FitState → Prop
  | none => ∀ r, M r → noOrientFits pw ph r
  | some c =>
      M c.2.1 ∧ orientOk pw ph c.2.1 c.2.2.1 c.2.2.2 ∧
        c.1 = scoreFit cfg c.2.1 c.2.2.1 c.2.2.2 heu ∧
        ∀ r, M r → noBetterCand cfg pw ph heu r c.1

/-- The arithmetic invariant of a placed piece used by the consolidation
termination argument: nonnegative placed and original dimensions, and the
placed area equals the original (unrotated) area. -/
def PieceInv (p : PlacedPiece) : Prop :=
  0 ≤ p.w ∧ 0 ≤ p.h ∧ 0 ≤ p.origW ∧ 0 ≤ p.origH ∧ p.w * p.h = p.origW * p.origH

/-- The bookkeeping invariant of one sheet: `usedArea` is the sum of the
placed (unkerfed) areas, and every placed piece satisfies `PieceInv`. -/
def SheetAreaInv (s : Sheet) : Prop :=
  s.usedArea = (s.pieces.map fun p => p.w * p.h).sum ∧ ∀ p ∈ s.pieces, PieceInv p

/-- The invariant of the consolidation loop state. -/
def ConsInv (sheets : List Sheet) : Prop := ∀ s ∈ sheets, SheetAreaInv s

/-! ### Basic lemmas about the embedding -/

theorem pruneInner_length (ri : FreeRect) (l : List (Option FreeRect)) :
    (pruneInner ri l).2.length = l.length := by
  induction l with
  | nil => rfl
  | cons hd t ih =>
      match hd with
      | none => simpa [pruneInner] using ih
      | some rj =>
          by_cases h1 : isContained ri rj = true
          · simp [pruneInner, h1]
          · by_cases h2 : isContained rj ri = true
            · simpa [pruneInner, h1, h2] using ih
            · simpa [pruneInner, h1, h2] using ih

theorem packPieces_eq (pieces : List Piece) (w h k mx : ℚ) (hne : ¬ pieces.length = 0) :
    packPieces pieces w h k mx =
      ⟨(finalResult ⟨w, h, k, mx⟩ pieces).sheets.map (finalizeSheet ⟨w, h, k, mx⟩),
        (finalResult ⟨w, h, k, mx⟩ pieces).unplaced,
        generateSuggestions ⟨w, h, k, mx⟩
          ((finalResult ⟨w, h, k, mx⟩ pieces).sheets.map (finalizeSheet ⟨w, h, k, mx⟩))
          (finalResult ⟨w, h, k, mx⟩ pieces).unplaced⟩ := by
  unfold packPieces
  rw [if_neg hne]
  rfl

theorem insertSorted_perm {α : Type} (cmp : α → α → ℚ) (x : α) (l : List α) :
    (insertSorted cmp x l).Perm (x :: l) := by
  induction l with
  | nil => exact List.Perm.refl _
  | cons y ys ih =>
      rw [insertSorted]
      by_cases hc : cmp x y < 0
      · rw [if_pos hc]
      · rw [if_neg hc]
        exact (ih.cons y).trans (List.Perm.swap x y ys)

theorem jsSortAux_perm {α : Type} (cmp : α → α → ℚ) :
    ∀ (l acc : List α),
      (l.foldl (fun a x => insertSorted cmp x a) acc).Perm (acc ++ l) := by
  intro l
  induction l with
  | nil => intro acc; simp
  | cons x xs ih =>
      intro acc
      rw [List.foldl_cons]
      refine (ih (insertSorted cmp x acc)).trans ?_
      refine (List.Perm.append_right xs (insertSorted_perm cmp x acc)).trans ?_
      exact List.perm_middle.symm

theorem jsSort_perm {α : Type} (cmp : α → α → ℚ) (l : List α) :
    (jsSort cmp l).Perm l := by
  simpa using jsSortAux_perm cmp l []

theorem jsSort_length {α : Type} (cmp : α → α → ℚ) (l : List α) :
    (jsSort cmp l).length = l.length :=
  (jsSort_perm cmp l).length_eq

theorem foldl_choice_mem {α : Type} (f : Option α → α → Option α)
    (hf : ∀ st r, f st r = some r ∨ f st r = st) :
    ∀ (rs : List α) (st : Option α) (b : α), rs.foldl f st = some b → st = some b ∨ b ∈ rs := by
  intro rs
  induction rs with
  | nil => exact fun st b h => Or.inl h
  | cons r rest ih =>
      intro st b h
      rw [List.foldl_cons] at h
      rcases ih (f st r) b h with h1 | h1
      · rcases hf st r with h2 | h2
        · rw [h2] at h1
          injection h1 with h1
          exact Or.inr (h1 ▸ List.mem_cons_self r rest)
        · rw [h2] at h1
          exact Or.inl h1
      · exact Or.inr (List.mem_cons_of_mem r h1)

theorem pickStep_cases (cfg : Config) (st : Option StratResult) (r : StratResult) :
    pickStep cfg st r = some r ∨ pickStep cfg st r = st := by
  match st with
  | none => exact Or.inl rfl
  | some bb =>
      by_cases hb : isBetterResult cfg r bb = true
      · exact Or.inl (by simp [pickStep, hb])
      · exact Or.inr (by simp [pickStep, hb])

theorem pickBest_mem {cfg : Config} {rs : List StratResult} {b : StratResult}
    (h : pickBest cfg rs = some b) : b ∈ rs := by
  rcases foldl_choice_mem (pickStep cfg) (pickStep_cases cfg) rs none b h with h1 | h1
  · exact Option.noConfusion h1
  · exact h1

theorem allResults_mem {cfg : Config} {pieces : List Piece} {r : StratResult}
    (h : r ∈ allResults cfg pieces) :
    ∃ f ∈ sortStrategies, ∃ heu ∈ heuristics, r = runStrategy cfg (jsSort f pieces) heu := by
  rw [allResults, List.mem_flatMap] at h
  obtain ⟨f, hf, hr⟩ := h
  rw [List.mem_map] at hr
  obtain ⟨heu, hh, hr⟩ := hr
  exact ⟨f, hf, heu, hh, hr.symm⟩

theorem stratStep_length_le {cfg : Config} {heu : Heuristic} {m : ℕ}
    (hm : cfg.maxSheets = (m : ℚ)) (st : StratResult) (piece : Piece)
    (h : st.sheets.length ≤ m) : (stratStep cfg heu st piece).sheets.length ≤ m := by
  rw [stratStep]
  by_cases hfit : (piece.width ≤ cfg.sheetW ∧ piece.height ≤ cfg.sheetH) ∨
      (piece.height ≤ cfg.sheetW ∧ piece.width ≤ cfg.sheetH)
  · rw [if_pos hfit]
    cases hch : chooseSheet cfg st.sheets piece.width piece.height heu with
    | none =>
        by_cases hcap : cfg.maxSheets ≤ (st.sheets.length : ℚ)
        · rw [if_pos hcap]
          exact h
        · rw [if_neg hcap]
          cases htp : tryPlace cfg piece (newSheet cfg) heu with
          | none => exact h
          | some s =>
              simp only [List.length_append, List.length_cons, List.length_nil]
              rw [hm] at hcap
              have hlt : st.sheets.length < m := by
                exact_mod_cast lt_of_not_le hcap
              omega
    | some p =>
        obtain ⟨sc, i⟩ := p
        cases htp : tryPlace cfg piece (st.sheets.getD i default) heu with
        | none => simp only [htp]; exact h
        | some sh => simp only [htp, List.length_set]; exact h
  · rw [if_neg hfit]
    exact h

theorem runStrategy_length_le {cfg : Config} {m : ℕ} (hm : cfg.maxSheets = (m : ℚ))
    (sorted : List Piece) (heu : Heuristic) :
    (runStrategy cfg sorted heu).sheets.length ≤ m := by
  rw [runStrategy]
  have : ∀ (l : List Piece) (st : StratResult), st.sheets.length ≤ m →
      (l.foldl (stratStep cfg heu) st).sheets.length ≤ m := by
    intro l
    induction l with
    | nil => exact fun st h => h
    | cons p ps ih =>
        intro st h
        rw [List.foldl_cons]
        exact ih _ (stratStep_length_le hm st p h)
  exact this sorted ⟨[], []⟩ (Nat.zero_le m)

theorem tryMoveAux_length {cfg : Config} {fp : Piece} {sheets : List Sheet} :
    ∀ (idxs : List Nat) (l2 : List Sheet), tryMoveAux cfg fp sheets idxs = some l2 →
      l2.length = sheets.length := by
  intro idxs
  induction idxs with
  | nil => exact fun l2 h => Option.noConfusion h
  | cons si rest ih =>
      intro l2 h
      rw [tryMoveAux] at h
      by_cases hf : (findBestFit cfg (sheets.getD si default) fp.width fp.height .bssf).isSome
        = true
      · rw [if_pos hf] at h
        injection h with h
        cases htp : tryPlace cfg fp (sheets.getD si default) .bssf with
        | none => rw [htp] at h; rw [← h]
        | some sh2 => rw [htp] at h; rw [← h]; exact List.length_set sheets si sh2
      · rw [if_neg hf] at h
        exact ih l2 h

theorem movePass_length {cfg : Config} :
    ∀ (ps : List PlacedPiece) (sheets : List Sheet),
      (movePass cfg ps sheets).1.length = sheets.length := by
  intro ps
  induction ps with
  | nil => intro sheets; rfl
  | cons p rest ih =>
      intro sheets
      rw [movePass]
      cases hm : tryMoveAux cfg (fakePiece p) sheets (List.range (sheets.length - 1)) with
      | none => exact ih sheets
      | some sheets2 =>
          have h2 := tryMoveAux_length _ _ hm
          simpa [ih sheets2] using h2

theorem consIter_length_le (cfg : Config) (sheets : List Sheet) :
    (consIter cfg sheets).1.length ≤ sheets.length := by
  rw [consIter]
  cases hL : (jsSort sheetCmp sheets).getLast? with
  | none => exact (jsSort_length sheetCmp sheets).le
  | some lastSheet =>
      dsimp only
      have hlen := jsSort_length sheetCmp sheets
      have hne : jsSort sheetCmp sheets ≠ [] := by
        intro he
        rw [he] at hL
        exact Option.noConfusion hL
      have hpos : 0 < (jsSort sheetCmp sheets).length := List.length_pos.mpr hne
      have hmp := @movePass_length cfg lastSheet.pieces (jsSort sheetCmp sheets)
      by_cases h0 : ((movePass cfg lastSheet.pieces (jsSort sheetCmp sheets)).2.filter
          id).length = 0
      · rw [if_pos h0]
        exact hlen.le
      · rw [if_neg h0]
        by_cases h1 : ((movePass cfg lastSheet.pieces (jsSort sheetCmp sheets)).2.filter
            id).length = lastSheet.pieces.length
        · rw [if_pos h1]
          simp only [List.length_dropLast]
          omega
        · rw [if_neg h1]
          simp only [List.length_append, List.length_dropLast, List.length_cons,
            List.length_nil]
          omega

theorem consolidateGo_length_le (cfg : Config) :
    ∀ (n : Nat) (sheets r : List Sheet), consolidateGo cfg n sheets = some r →
      r.length ≤ sheets.length := by
  intro n
  induction n with
  | zero => exact fun sheets r h => Option.noConfusion h
  | succ n ih =>
      intro sheets r h
      rw [consolidateGo] at h
      by_cases h1 : sheets.length ≤ 1
      · rw [if_pos h1] at h
        injection h with h
        subst h
        exact le_refl _
      · rw [if_neg h1] at h
        by_cases h2 : (consIter cfg sheets).2 = true
        · rw [if_pos h2] at h
          exact le_trans (ih _ _ h) (consIter_length_le cfg sheets)
        · rw [if_neg h2] at h
          injection h with h
          exact h ▸ consIter_length_le cfg sheets

theorem isBetterScore_iff (a b : Score) :
    isBetterScore a b = true ↔
      (a.primary < b.primary ∨
        (a.primary = b.primary ∧ a.secondary < b.secondary) ∨
        (a.primary = b.primary ∧ a.secondary = b.secondary ∧
          a.positionScore < b.positionScore)) := by
  by_cases h1 : a.primary = b.primary
  · by_cases h2 : a.secondary = b.secondary
    · simp [isBetterScore, h1, h2]
    · simp [isBetterScore, h1, h2]
  · simp [isBetterScore, h1]

theorem isBetterScore_irrefl (a : Score) : isBetterScore a a = false := by
  simp [isBetterScore]

theorem isBetterScore_trans {a b c : Score} (h1 : isBetterScore a b = true)
    (h2 : isBetterScore b c = true) : isBetterScore a c = true := by
  rw [isBetterScore_iff] at h1 h2 ⊢
  rcases h1 with h1 | ⟨e1, h1⟩ | ⟨e1, e2, h1⟩ <;> rcases h2 with h2 | ⟨f1, h2⟩ | ⟨f1, f2, h2⟩
  all_goals first
    | (left; linarith)
    | (right; left; exact ⟨by linarith, by linarith⟩)
    | (right; right; exact ⟨by linarith, by linarith, by linarith⟩)

theorem isBetterScore_of_false_of_true {x c bs : Score} (hx : isBetterScore x bs = false)
    (hc : isBetterScore c bs = true) : isBetterScore x c = false := by
  cases hxc : isBetterScore x c with
  | false => rfl
  | true =>
      have h := isBetterScore_trans hxc hc
      rw [hx] at h
      exact Bool.noConfusion h

theorem noBetterCand_mono {cfg : Config} {pw ph : ℚ} {heu : Heuristic} {r : FreeRect}
    {b c : Score} (h : noBetterCand cfg pw ph heu r b) (hc : isBetterScore c b = true) :
    noBetterCand cfg pw ph heu r c :=
  ⟨fun hf => isBetterScore_of_false_of_true (h.1 hf) hc,
   fun hf => isBetterScore_of_false_of_true (h.2 hf) hc⟩

theorem noBetterCand_of_noOrientFits {cfg : Config} {pw ph : ℚ} {heu : Heuristic}
    {r : FreeRect} (h : noOrientFits pw ph r) (b : Score) :
    noBetterCand cfg pw ph heu r b :=
  ⟨fun hf => absurd hf h.1, fun hf => absurd hf h.2⟩

theorem considerCandidate_spec (st : FitState) (sc : Score) (r0 : FreeRect) (w0 h0 : ℚ) :
    (considerCandidate st sc r0 w0 h0 = some (sc, r0, w0, h0) ∧
      (st = none ∨ ∃ c, st = some c ∧ isBetterScore sc c.1 = true)) ∨
    (∃ c, st = some c ∧ considerCandidate st sc r0 w0 h0 = some c ∧
      isBetterScore sc c.1 = false) := by
  match st with
  | none => exact Or.inl ⟨rfl, Or.inl rfl⟩
  | some (bs, br, bw, bh) =>
      by_cases hb : isBetterScore sc bs = true
      · exact Or.inl ⟨by simp [considerCandidate, hb], Or.inr ⟨_, rfl, hb⟩⟩
      · refine Or.inr ⟨(bs, br, bw, bh), rfl, by simp [considerCandidate, hb], ?_⟩
        simpa using hb

/-- Processing one well-formed candidate orientation yields a well-formed
running best that the candidate does not strictly beat, and that no
previously scanned rectangle beats either. -/
theorem considerCandidate_inv {cfg : Config} {pw ph : ℚ} {heu : Heuristic}
    {M : FreeRect → Prop} {st : FitState} (h : fbfInv cfg pw ph heu M st)
    {r0 : FreeRect} {w0 h0 : ℚ} (hor : orientOk pw ph r0 w0 h0) :
    ∃ c, considerCandidate st (scoreFit cfg r0 w0 h0 heu) r0 w0 h0 = some c ∧
      (M c.2.1 ∨ c.2.1 = r0) ∧ orientOk pw ph c.2.1 c.2.2.1 c.2.2.2 ∧
      c.1 = scoreFit cfg c.2.1 c.2.2.1 c.2.2.2 heu ∧
      (∀ r, M r → noBetterCand cfg pw ph heu r c.1) ∧
      isBetterScore (scoreFit cfg r0 w0 h0 heu) c.1 = false := by
  rcases considerCandidate_spec st (scoreFit cfg r0 w0 h0 heu) r0 w0 h0 with
    ⟨heq, hnone | ⟨c0, hst, hb⟩⟩ | ⟨c0, hst, hkeep, hb⟩
  · subst hnone
    refine ⟨_, heq, Or.inr rfl, hor, rfl, ?_, isBetterScore_irrefl _⟩
    intro r hr
    exact noBetterCand_of_noOrientFits (h r hr) _
  · subst hst
    refine ⟨_, heq, Or.inr rfl, hor, rfl, ?_, isBetterScore_irrefl _⟩
    intro r hr
    exact noBetterCand_mono (h.2.2.2 r hr) hb
  · subst hst
    exact ⟨c0, hkeep, Or.inl h.1, h.2.1, h.2.2.1, h.2.2.2, hb⟩

/-- One full `findBestFit` loop iteration preserves the fold invariant,
extending the scanned set by the new rectangle. -/
theorem fbfStep_inv {cfg : Config} {pw ph : ℚ} {heu : Heuristic} {M : FreeRect → Prop}
    {st : FitState} (h : fbfInv cfg pw ph heu M st) (r0 : FreeRect) :
    fbfInv cfg pw ph heu (fun r => M r ∨ r = r0) (fbfStep cfg pw ph heu st r0) := by
  by_cases hN : pw ≤ r0.w ∧ ph ≤ r0.h
  · obtain ⟨c1, hc1eq, c1mem, c1or, c1sc, c1all, c1own⟩ :=
      considerCandidate_inv h (Or.inl ⟨rfl, rfl, hN.1, hN.2⟩)
    have hst1 : fbfStepNormal cfg pw ph heu st r0 = some c1 := by
      rw [fbfStepNormal, if_pos hN, hc1eq]
    by_cases hR : ph ≤ r0.w ∧ pw ≤ r0.h ∧ pw ≠ ph
    · rw [fbfStep, if_pos hR, hst1]
      rcases considerCandidate_spec (some c1) (scoreFit cfg r0 ph pw heu) r0 ph pw with
        ⟨heq, hnone | ⟨c0, hsome, hb⟩⟩ | ⟨c0, hsome, hkeep, hb⟩
      · exact Option.noConfusion hnone
      · have hc0 : c0 = c1 := by injection hsome with hh; exact hh.symm
        subst hc0
        rw [heq]
        refine ⟨Or.inr rfl, Or.inr ⟨rfl, rfl, hR.2.2, hR.1, hR.2.1⟩, rfl, ?_⟩
        rintro r (hr | rfl)
        · exact noBetterCand_mono (c1all r hr) hb
        · exact ⟨fun _ => isBetterScore_of_false_of_true c1own hb,
            fun _ => isBetterScore_irrefl _⟩
      · have hc0 : c0 = c1 := by injection hsome with hh; exact hh.symm
        subst hc0
        rw [hkeep]
        rcases c1mem with hm | hm
        · refine ⟨Or.inl hm, c1or, c1sc, ?_⟩
          rintro r (hr | rfl)
          · exact c1all r hr
          · exact ⟨fun _ => c1own, fun _ => hb⟩
        · refine ⟨Or.inr hm, c1or, c1sc, ?_⟩
          rintro r (hr | rfl)
          · exact c1all r hr
          · exact ⟨fun _ => c1own, fun _ => hb⟩
    · rw [fbfStep, if_neg hR, hst1]
      rcases c1mem with hm | hm
      · refine ⟨Or.inl hm, c1or, c1sc, ?_⟩
        rintro r (hr | rfl)
        · exact c1all r hr
        · exact ⟨fun _ => c1own, fun hf => absurd hf hR⟩
      · refine ⟨Or.inr hm, c1or, c1sc, ?_⟩
        rintro r (hr | rfl)
        · exact c1all r hr
        · exact ⟨fun _ => c1own, fun hf => absurd hf hR⟩
  · have hst1 : fbfStepNormal cfg pw ph heu st r0 = st := by
      rw [fbfStepNormal, if_neg hN]
    by_cases hR : ph ≤ r0.w ∧ pw ≤ r0.h ∧ pw ≠ ph
    · rw [fbfStep, if_pos hR, hst1]
      obtain ⟨c1, hc1eq, c1mem, c1or, c1sc, c1all, c1own⟩ :=
        considerCandidate_inv h (Or.inr ⟨rfl, rfl, hR.2.2, hR.1, hR.2.1⟩)
      rw [hc1eq]
      rcases c1mem with hm | hm
      · refine ⟨Or.inl hm, c1or, c1sc, ?_⟩
        rintro r (hr | rfl)
        · exact c1all r hr
        · exact ⟨fun hf => absurd hf hN, fun _ => c1own⟩
      · refine ⟨Or.inr hm, c1or, c1sc, ?_⟩
        rintro r (hr | rfl)
        · exact c1all r hr
        · exact ⟨fun hf => absurd hf hN, fun _ => c1own⟩
    · rw [fbfStep, if_neg hR, hst1]
      match st, h with
      | none, h =>
          rintro r (hr | rfl)
          · exact h r hr
          · exact ⟨hN, hR⟩
      | some c, h =>
          refine ⟨Or.inl h.1, h.2.1, h.2.2.1, ?_⟩
          rintro r (hr | rfl)
          · exact h.2.2.2 r hr
          · exact ⟨fun hf => absurd hf hN, fun hf => absurd hf hR⟩

theorem fbfInv_congr {cfg : Config} {pw ph : ℚ} {heu : Heuristic} {M N : FreeRect → Prop}
    (hMN : ∀ r, M r ↔ N r) {st : FitState} (h : fbfInv cfg pw ph heu M st) :
    fbfInv cfg pw ph heu N st := by
  match st, h with
  | none, h => exact fun r hr => h r ((hMN r).mpr hr)
  | some c, h =>
      exact ⟨(hMN _).mp h.1, h.2.1, h.2.2.1, fun r hr => h.2.2.2 r ((hMN r).mpr hr)⟩

theorem fbfFold_inv (cfg : Config) (pw ph : ℚ) (heu : Heuristic) :
    ∀ (l : List FreeRect) (M : FreeRect → Prop) (st : FitState),
      fbfInv cfg pw ph heu M st →
      fbfInv cfg pw ph heu (fun r => M r ∨ r ∈ l) (l.foldl (fbfStep cfg pw ph heu) st) := by
  intro l
  induction l with
  | nil =>
      intro M st h
      exact fbfInv_congr (fun r => by simp) h
  | cons a t ih =>
      intro M st h
      have h1 := fbfStep_inv h a
      have h2 := ih (fun r => M r ∨ r = a) (fbfStep cfg pw ph heu st a) h1
      refine fbfInv_congr (fun r => ?_) h2
      simp [List.mem_cons]
      tauto

theorem findBestFit_none_iff (cfg : Config) (sheet : Sheet) (pw ph : ℚ) (heu : Heuristic) :
    findBestFit cfg sheet pw ph heu = none ↔
      ∀ r ∈ sheet.freeRects, noOrientFits pw ph r := by
  have base : fbfInv cfg pw ph heu (fun _ => False) none := fun r hr => hr.elim
  have hfold := fbfFold_inv cfg pw ph heu sheet.freeRects (fun _ => False) none base
  rw [findBestFit]
  match hfe : sheet.freeRects.foldl (fbfStep cfg pw ph heu) none, hfold with
  | none, hfold =>
      constructor
      · intro _ r hr
        exact hfold r (Or.inr hr)
      · intro _
        rfl
  | some c, hfold =>
      obtain ⟨bs, br, bw, bh⟩ := c
      constructor
      · intro hc
        exact Option.noConfusion hc
      · intro hall
        rcases hfold.1 with hf | hm
        · exact hf.elim
        · rcases hfold.2.1 with ⟨_, _, hfit1, hfit2⟩ | ⟨_, _, hne, hfit1, hfit2⟩
          · exact absurd ⟨hfit1, hfit2⟩ (hall _ hm).1
          · exact absurd ⟨hfit1, hfit2, hne⟩ (hall _ hm).2

theorem findBestFit_some_spec (cfg : Config) (sheet : Sheet) (pw ph : ℚ) (heu : Heuristic)
    (fit : Fit) (h : findBestFit cfg sheet pw ph heu = some fit) :
    fit.rect ∈ sheet.freeRects ∧ orientOk pw ph fit.rect fit.w fit.h ∧
      fit.score = scoreFit cfg fit.rect fit.w fit.h heu ∧
      (∀ r ∈ sheet.freeRects, noBetterCand cfg pw ph heu r fit.score) ∧
      fit.rotated = decide (fit.w ≠ pw) := by
  have base : fbfInv cfg pw ph heu (fun _ => False) none := fun r hr => hr.elim
  have hfold := fbfFold_inv cfg pw ph heu sheet.freeRects (fun _ => False) none base
  rw [findBestFit] at h
  match hfe : sheet.freeRects.foldl (fbfStep cfg pw ph heu) none, hfold with
  | none, _ =>
      rw [hfe] at h
      exact Option.noConfusion h
  | some c, hfold =>
      obtain ⟨bs, br, bw, bh⟩ := c
      rw [hfe] at h
      have hfit : fit = ⟨br, bw, bh, decide (bw ≠ pw), bs⟩ := by
        injection h with hh
        exact hh.symm
      subst hfit
      rcases hfold.1 with hf | hm
      · exact hf.elim
      · exact ⟨hm, hfold.2.1, hfold.2.2.1,
          fun r hr => hfold.2.2.2 r (Or.inr hr), rfl⟩

theorem rectInside_refl (r : FreeRect) : rectInside r r :=
  ⟨le_refl _, le_refl _, le_refl _, le_refl _⟩

theorem rectInSheet_of_inside {cfg : Config} {a b : FreeRect} (h1 : rectInside a b)
    (h2 : rectInSheet cfg b) : rectInSheet cfg a := by
  obtain ⟨i1, i2, i3, i4⟩ := h1
  obtain ⟨s1, s2, s3, s4⟩ := h2
  exact ⟨le_trans s1 i1, le_trans s2 i2, le_trans i3 s3, le_trans i4 s4⟩

theorem rectAvoids_of_inside {a b : FreeRect} {x1 x2 y1 y2 : ℚ} (h1 : rectInside a b)
    (h2 : rectAvoids b x1 x2 y1 y2) : rectAvoids a x1 x2 y1 y2 := by
  obtain ⟨i1, i2, i3, i4⟩ := h1
  rcases h2 with h | h | h | h
  · exact Or.inl (by linarith)
  · exact Or.inr (Or.inl (by linarith))
  · exact Or.inr (Or.inr (Or.inl (by linarith)))
  · exact Or.inr (Or.inr (Or.inr (by linarith)))

theorem placeRectRaw_mem {cfg : Config} {rects : List FreeRect} {x y w h : ℚ}
    {r2 : FreeRect} (hm : r2 ∈ placeRectRaw cfg rects x y w h) :
    ∃ r ∈ rects, rectInside r2 r ∧
      rectAvoids r2 x (min (x + w + cfg.kerf) cfg.sheetW) y
        (min (y + h + cfg.kerf) cfg.sheetH) := by
  rw [placeRectRaw, List.mem_flatMap] at hm
  obtain ⟨r, hr, hin⟩ := hm
  by_cases hg : (r.x + r.w ≤ x ∨ min (x + w + cfg.kerf) cfg.sheetW ≤ r.x ∨
      r.y + r.h ≤ y ∨ min (y + h + cfg.kerf) cfg.sheetH ≤ r.y)
  · rw [if_pos hg, List.mem_singleton] at hin
    subst hin
    exact ⟨r2, hr, rectInside_refl r2, hg⟩
  · rw [if_neg hg] at hin
    push_neg at hg
    obtain ⟨hg1, hg2, hg3, hg4⟩ := hg
    refine ⟨r, hr, ?_⟩
    rcases List.mem_append.mp hin with hin | hin4
    · rcases List.mem_append.mp hin with hin | hin3
      · rcases List.mem_append.mp hin with hin1 | hin2
        · by_cases hgl : r.x < x
          · rw [if_pos hgl, List.mem_singleton] at hin1
            subst hin1
            refine ⟨⟨le_refl _, le_refl _, by dsimp only; linarith, by dsimp only; linarith⟩,
              Or.inl ?_⟩
            dsimp only
            linarith
          · rw [if_neg hgl] at hin1
            exact absurd hin1 (List.not_mem_nil _)
        · by_cases hgr : min (x + w + cfg.kerf) cfg.sheetW < r.x + r.w
          · rw [if_pos hgr, List.mem_singleton] at hin2
            subst hin2
            refine ⟨⟨by dsimp only; linarith, le_refl _, by dsimp only; linarith,
              by dsimp only; linarith⟩, Or.inr (Or.inl ?_)⟩
            dsimp only
            linarith
          · rw [if_neg hgr] at hin2
            exact absurd hin2 (List.not_mem_nil _)
      · by_cases hgt : r.y < y
        · rw [if_pos hgt, List.mem_singleton] at hin3
          subst hin3
          refine ⟨⟨le_refl _, le_refl _, by dsimp only; linarith, by dsimp only; linarith⟩,
            Or.inr (Or.inr (Or.inl ?_))⟩
          dsimp only
          linarith
        · rw [if_neg hgt] at hin3
          exact absurd hin3 (List.not_mem_nil _)
    · by_cases hgb : min (y + h + cfg.kerf) cfg.sheetH < r.y + r.h
      · rw [if_pos hgb, List.mem_singleton] at hin4
        subst hin4
        refine ⟨⟨le_refl _, by dsimp only; linarith, by dsimp only; linarith,
          by dsimp only; linarith⟩, Or.inr (Or.inr (Or.inr ?_))⟩
        dsimp only
        linarith
      · rw [if_neg hgb] at hin4
        exact absurd hin4 (List.not_mem_nil _)

theorem pruneInner_mem (ri : FreeRect) :
    ∀ (l : List (Option FreeRect)) (x : FreeRect),
      some x ∈ (pruneInner ri l).2 → some x ∈ l := by
  intro l
  induction l with
  | nil => exact fun x hx => absurd hx (List.not_mem_nil _)
  | cons hd t ih =>
      intro x hx
      match hd with
      | none =>
          rcases List.mem_cons.mp hx with he | hx2
          · exact Option.noConfusion he
          · exact List.mem_cons_of_mem _ (ih x hx2)
      | some rj =>
          by_cases hc1 : isContained ri rj = true
          · rw [pruneInner, if_pos hc1] at hx
            exact hx
          · by_cases hc2 : isContained rj ri = true
            · rw [pruneInner, if_neg hc1, if_pos hc2] at hx
              rcases List.mem_cons.mp hx with he | hx2
              · exact Option.noConfusion he
              · exact List.mem_cons_of_mem _ (ih x hx2)
            · rw [pruneInner, if_neg hc1, if_neg hc2] at hx
              rcases List.mem_cons.mp hx with he | hx2
              · exact he ▸ List.mem_cons_self _ _
              · exact List.mem_cons_of_mem _ (ih x hx2)

theorem pruneOuterGo_mem :
    ∀ (n : Nat) (l : List (Option FreeRect)) (x : FreeRect),
      x ∈ pruneOuterGo n l → some x ∈ l := by
  intro n
  induction n with
  | zero =>
      intro l x hx
      match l with
      | [] => exact absurd hx (List.not_mem_nil _)
      | a :: t => exact absurd hx (List.not_mem_nil _)
  | succ n ih =>
      intro l x hx
      match l with
      | [] => exact absurd hx (List.not_mem_nil _)
      | none :: t => exact List.mem_cons_of_mem _ (ih t x hx)
      | some ri :: t =>
          by_cases hk : (pruneInner ri t).1 = true
          · rw [pruneOuterGo, if_pos hk] at hx
            rcases List.mem_cons.mp hx with he | hx2
            · exact he ▸ List.mem_cons_self _ _
            · exact List.mem_cons_of_mem _ (pruneInner_mem ri t x (ih _ x hx2))
          · rw [pruneOuterGo, if_neg hk] at hx
            exact List.mem_cons_of_mem _ (pruneInner_mem ri t x (ih _ x hx))

theorem pruneInner_true_spec (ri : FreeRect) :
    ∀ (l : List (Option FreeRect)), (pruneInner ri l).1 = true →
      ∀ x, some x ∈ (pruneInner ri l).2 →
        isContained ri x = false ∧ isContained x ri = false := by
  intro l
  induction l with
  | nil => exact fun _ x hx => absurd hx (List.not_mem_nil _)
  | cons hd t ih =>
      match hd with
      | none =>
          intro h1 x hx
          rcases List.mem_cons.mp hx with he | hx2
          · exact Option.noConfusion he
          · exact ih h1 x hx2
      | some rj =>
          by_cases hc1 : isContained ri rj = true
          · intro h1
            rw [pruneInner, if_pos hc1] at h1
            exact Bool.noConfusion h1
          · have hc1f : isContained ri rj = false := by
              cases hcv : isContained ri rj with
              | false => rfl
              | true => exact absurd hcv hc1
            by_cases hc2 : isContained rj ri = true
            · intro h1 x hx
              rw [pruneInner, if_neg hc1, if_pos hc2] at h1 hx
              rcases List.mem_cons.mp hx with he | hx2
              · exact Option.noConfusion he
              · exact ih h1 x hx2
            · have hc2f : isContained rj ri = false := by
                cases hcv : isContained rj ri with
                | false => rfl
                | true => exact absurd hcv hc2
              intro h1 x hx
              rw [pruneInner, if_neg hc1, if_neg hc2] at h1 hx
              rcases List.mem_cons.mp hx with he | hx2
              · injection he with he
                subst he
                exact ⟨hc1f, hc2f⟩
              · exact ih h1 x hx2

theorem pruneOuterGo_pairwise :
    ∀ (n : Nat) (l : List (Option FreeRect)),
      List.Pairwise (fun a b => isContained a b = false ∧ isContained b a = false)
        (pruneOuterGo n l) := by
  intro n
  induction n with
  | zero =>
      intro l
      match l with
      | [] => exact List.Pairwise.nil
      | a :: t => exact List.Pairwise.nil
  | succ n ih =>
      intro l
      match l with
      | [] => exact List.Pairwise.nil
      | none :: t => exact ih t
      | some ri :: t =>
          by_cases hk : (pruneInner ri t).1 = true
          · rw [pruneOuterGo, if_pos hk]
            refine List.Pairwise.cons ?_ (ih _)
            intro b hb
            exact pruneInner_true_spec ri t hk b (pruneOuterGo_mem n _ b hb)
          · rw [pruneOuterGo, if_neg hk]
            exact ih _

theorem placeRect_spec (cfg : Config) (sheet : Sheet) (x y w h : ℚ) :
    (∀ r2 ∈ (placeRect cfg sheet x y w h).freeRects,
      (1 / 2 < r2.w ∧ 1 / 2 < r2.h) ∧
      ∃ r ∈ sheet.freeRects, rectInside r2 r ∧
        rectAvoids r2 x (min (x + w + cfg.kerf) cfg.sheetW) y
          (min (y + h + cfg.kerf) cfg.sheetH)) ∧
    List.Pairwise (fun a b => isContained a b = false ∧ isContained b a = false)
      (placeRect cfg sheet x y w h).freeRects ∧
    (placeRect cfg sheet x y w h).pieces = sheet.pieces ∧
    (placeRect cfg sheet x y w h).usedArea = sheet.usedArea := by
  refine ⟨?_, pruneOuterGo_pairwise _ _, rfl, rfl⟩
  intro r2 hr2
  have hsome : some r2 ∈ ((placeRectRaw cfg sheet.freeRects x y w h).filter fun r =>
      decide (1 / 2 < r.w) && decide (1 / 2 < r.h)).map some :=
    pruneOuterGo_mem _ _ r2 hr2
  rw [List.mem_map] at hsome
  obtain ⟨r3, hr3, he⟩ := hsome
  injection he with he
  subst he
  rw [List.mem_filter] at hr3
  obtain ⟨hraw, hpred⟩ := hr3
  rw [Bool.and_eq_true, decide_eq_true_eq, decide_eq_true_eq] at hpred
  exact ⟨hpred, placeRectRaw_mem hraw⟩

theorem getD_zero_mem {α : Type} [Inhabited α] (l : List α) (h : l ≠ []) :
    l.getD 0 default ∈ l := by
  match l with
  | [] => exact absurd rfl h
  | a :: t => exact List.mem_cons_self a t

theorem getLast?_mem_list {α : Type} {l : List α} {a : α} (h : l.getLast? = some a) :
    a ∈ l := by
  obtain ⟨hne, he⟩ := List.mem_getLast?_eq_getLast (show a ∈ l.getLast? by rw [h]; rfl)
  exact he ▸ List.getLast_mem hne

theorem orientOk_dims {pw ph : ℚ} {br : FreeRect} {bw bh : ℚ}
    (h : orientOk pw ph br bw bh) :
    (bw = pw ∧ bh = ph ∨ bw = ph ∧ bh = pw) ∧ bw ≤ br.w ∧ bh ≤ br.h := by
  rcases h with ⟨h1, h2, h3, h4⟩ | ⟨h1, h2, _, h3, h4⟩
  · exact ⟨Or.inl ⟨h1, h2⟩, h1 ▸ h3, h2 ▸ h4⟩
  · exact ⟨Or.inr ⟨h1, h2⟩, h1 ▸ h3, h2 ▸ h4⟩

theorem sheetInv_default (cfg : Config) : SheetInv cfg default := by
  refine ⟨?_, ?_, ?_, List.Pairwise.nil⟩ <;> intro r hr <;> exact absurd hr (List.not_mem_nil _)

theorem sheetInv_newSheet (cfg : Config) : SheetInv cfg (newSheet cfg) := by
  refine ⟨?_, ?_, ?_, List.Pairwise.nil⟩
  · intro r hr
    rw [newSheet, List.mem_singleton] at hr
    subst hr
    exact ⟨le_refl 0, le_refl 0, by dsimp only; linarith, by dsimp only; linarith⟩
  · intro p hp
    exact absurd hp (List.not_mem_nil _)
  · intro r _ p hp
    exact absurd hp (List.not_mem_nil _)

theorem tryPlace_inv {cfg : Config} {piece : Piece} {heu : Heuristic}
    {sheet s2 : Sheet} (hw : 0 < piece.width) (hh : 0 < piece.height)
    (hs : SheetInv cfg sheet) (h : tryPlace cfg piece sheet heu = some s2) :
    SheetInv cfg s2 := by
  rw [tryPlace] at h
  cases hf : findBestFit cfg sheet piece.width piece.height heu with
  | none =>
      rw [hf] at h
      exact Option.noConfusion h
  | some fit =>
      rw [hf] at h
      injection h with h
      subst h
      obtain ⟨hmem, hor, _, _, _⟩ := findBestFit_some_spec _ _ _ _ _ fit hf
      obtain ⟨hdims, hle1, hle2⟩ := orientOk_dims hor
      have hwpos : 0 < fit.w := by rcases hdims with ⟨e, _⟩ | ⟨e, _⟩ <;> rw [e] <;> assumption
      have hhpos : 0 < fit.h := by rcases hdims with ⟨_, e⟩ | ⟨_, e⟩ <;> rw [e] <;> assumption
      have hrectS : rectInSheet cfg fit.rect := hs.1 _ hmem
      obtain ⟨hmemspec, hpair, hpieces, _⟩ := placeRect_spec cfg
        { sheet with
            pieces := sheet.pieces ++
              [⟨fit.rect.x, fit.rect.y, fit.w, fit.h, fit.rotated, piece.id,
                piece.width, piece.height⟩],
            usedArea := sheet.usedArea + fit.w * fit.h }
        fit.rect.x fit.rect.y fit.w fit.h
      refine ⟨?_, ?_, ?_, ?_⟩
      · intro r2 hr2
        obtain ⟨_, r, hr, hin, _⟩ := hmemspec r2 hr2
        exact rectInSheet_of_inside hin (hs.1 r hr)
      · rw [hpieces]
        intro p hp
        rcases List.mem_append.mp hp with hp | hp
        · exact hs.2.1 p hp
        · rw [List.mem_singleton] at hp
          subst hp
          refine ⟨⟨hrectS.1, hrectS.2.1, ?_, ?_⟩, hwpos, hhpos, hw, hh⟩
          · dsimp only
            have := hrectS.2.2.1
            linarith
          · dsimp only
            have := hrectS.2.2.2
            linarith
      · intro r2 hr2
        rw [hpieces]
        intro p hp
        obtain ⟨_, r, hr, hin, havoid⟩ := hmemspec r2 hr2
        rcases List.mem_append.mp hp with hp | hp
        · exact rectAvoids_of_inside hin (hs.2.2.1 r hr p hp)
        · rw [List.mem_singleton] at hp
          subst hp
          exact havoid
      · rw [hpieces]
        rw [List.pairwise_append]
        refine ⟨hs.2.2.2, List.pairwise_singleton _ _, ?_⟩
        intro p hp q hq
        rw [List.mem_singleton] at hq
        subst hq
        have hbody : rectInside
            (body ⟨fit.rect.x, fit.rect.y, fit.w, fit.h, fit.rotated, piece.id,
              piece.width, piece.height⟩) fit.rect :=
          ⟨le_refl _, le_refl _, by dsimp only [body]; linarith, by dsimp only [body]; linarith⟩
        exact rectAvoids_of_inside hbody (hs.2.2.1 fit.rect hmem p hp)

theorem getD_inv {cfg : Config} {sheets : List Sheet}
    (h : ∀ s ∈ sheets, SheetInv cfg s) (i : Nat) :
    SheetInv cfg (sheets.getD i default) := by
  induction sheets generalizing i with
  | nil => exact sheetInv_default cfg
  | cons s t ih =>
      match i with
      | 0 => exact h s (List.mem_cons_self s t)
      | j + 1 => exact ih (fun x hx => h x (List.mem_cons_of_mem s hx)) j

theorem stratStep_inv {cfg : Config} {heu : Heuristic} {st : StratResult} {piece : Piece}
    (hw : 0 < piece.width) (hh : 0 < piece.height)
    (h : ∀ s ∈ st.sheets, SheetInv cfg s) :
    ∀ s ∈ (stratStep cfg heu st piece).sheets, SheetInv cfg s := by
  rw [stratStep]
  by_cases hfit : (piece.width ≤ cfg.sheetW ∧ piece.height ≤ cfg.sheetH) ∨
      (piece.height ≤ cfg.sheetW ∧ piece.width ≤ cfg.sheetH)
  · rw [if_pos hfit]
    cases hch : chooseSheet cfg st.sheets piece.width piece.height heu with
    | none =>
        by_cases hcap : cfg.maxSheets ≤ (st.sheets.length : ℚ)
        · rw [if_pos hcap]
          exact h
        · rw [if_neg hcap]
          cases htp : tryPlace cfg piece (newSheet cfg) heu with
          | none => exact h
          | some s =>
              intro x hx
              rcases List.mem_append.mp hx with hx | hx
              · exact h x hx
              · rw [List.mem_singleton] at hx
                subst hx
                exact tryPlace_inv hw hh (sheetInv_newSheet cfg) htp
    | some p =>
        obtain ⟨sc, i⟩ := p
        cases htp : tryPlace cfg piece (st.sheets.getD i default) heu with
        | none => simp only [htp]; exact h
        | some sh =>
            simp only [htp]
            intro x hx
            rcases List.mem_or_eq_of_mem_set hx with hx | hx
            · exact h x hx
            · subst hx
              exact tryPlace_inv hw hh (getD_inv h i) htp
  · rw [if_neg hfit]
    exact h

theorem runStrategy_inv {cfg : Config} {heu : Heuristic} (sorted : List Piece)
    (hp : ∀ p ∈ sorted, 0 < p.width ∧ 0 < p.height) :
    ∀ s ∈ (runStrategy cfg sorted heu).sheets, SheetInv cfg s := by
  rw [runStrategy]
  have haux : ∀ (l : List Piece) (st : StratResult),
      (∀ p ∈ l, 0 < p.width ∧ 0 < p.height) →
      (∀ s ∈ st.sheets, SheetInv cfg s) →
      ∀ s ∈ (l.foldl (stratStep cfg heu) st).sheets, SheetInv cfg s := by
    intro l
    induction l with
    | nil => exact fun st _ h => h
    | cons p ps ih =>
        intro st hl h
        rw [List.foldl_cons]
        exact ih _ (fun q hq => hl q (List.mem_cons_of_mem p hq))
          (stratStep_inv (hl p (List.mem_cons_self p ps)).1
            (hl p (List.mem_cons_self p ps)).2 h)
  exact haux sorted ⟨[], []⟩ hp (fun s hs => absurd hs (List.not_mem_nil _))

theorem tryMoveAux_inv {cfg : Config} {fp : Piece} (hw : 0 < fp.width) (hh : 0 < fp.height)
    {sheets : List Sheet} (h : ∀ s ∈ sheets, SheetInv cfg s) :
    ∀ (idxs : List Nat) (l2 : List Sheet), tryMoveAux cfg fp sheets idxs = some l2 →
      ∀ s ∈ l2, SheetInv cfg s := by
  intro idxs
  induction idxs with
  | nil => exact fun l2 hl => Option.noConfusion hl
  | cons si rest ih =>
      intro l2 hl
      rw [tryMoveAux] at hl
      by_cases hf : (findBestFit cfg (sheets.getD si default) fp.width fp.height
          .bssf).isSome = true
      · rw [if_pos hf] at hl
        injection hl with hl
        cases htp : tryPlace cfg fp (sheets.getD si default) .bssf with
        | none =>
            rw [htp] at hl
            exact hl ▸ h
        | some sh2 =>
            rw [htp] at hl
            subst hl
            intro x hx
            rcases List.mem_or_eq_of_mem_set hx with hx | hx
            · exact h x hx
            · subst hx
              exact tryPlace_inv hw hh (getD_inv h si) htp
      · rw [if_neg hf] at hl
        exact ih l2 hl

theorem movePass_inv {cfg : Config} :
    ∀ (ps : List PlacedPiece) (sheets : List Sheet),
      (∀ p ∈ ps, 0 < p.origW ∧ 0 < p.origH) →
      (∀ s ∈ sheets, SheetInv cfg s) →
      ∀ s ∈ (movePass cfg ps sheets).1, SheetInv cfg s := by
  intro ps
  induction ps with
  | nil => exact fun sheets _ h => h
  | cons p rest ih =>
      intro sheets hp h
      rw [movePass]
      cases hm : tryMoveAux cfg (fakePiece p) sheets (List.range (sheets.length - 1)) with
      | none => exact ih sheets (fun q hq => hp q (List.mem_cons_of_mem p hq)) h
      | some sheets2 =>
          exact ih sheets2 (fun q hq => hp q (List.mem_cons_of_mem p hq))
            (tryMoveAux_inv (hp p (List.mem_cons_self p rest)).1
              (hp p (List.mem_cons_self p rest)).2 h _ _ hm)

theorem rebuildSheet_inv {cfg : Config} (remaining : List PlacedPiece)
    (hp : ∀ p ∈ remaining, 0 < p.origW ∧ 0 < p.origH) :
    SheetInv cfg (rebuildSheet cfg remaining) := by
  rw [rebuildSheet]
  have haux : ∀ (l : List PlacedPiece) (sh : Sheet),
      (∀ p ∈ l, 0 < p.origW ∧ 0 < p.origH) → SheetInv cfg sh →
      SheetInv cfg (l.foldl (fun sh p =>
        match tryPlace cfg (fakePiece p) sh .bssf with
        | some sh2 => sh2
        | none => sh) sh) := by
    intro l
    induction l with
    | nil => exact fun sh _ h => h
    | cons p rest ih =>
        intro sh hl h
        rw [List.foldl_cons]
        refine ih _ (fun q hq => hl q (List.mem_cons_of_mem p hq)) ?_
        cases htp : tryPlace cfg (fakePiece p) sh .bssf with
        | none => exact h
        | some sh2 =>
            exact tryPlace_inv (hl p (List.mem_cons_self p rest)).1
              (hl p (List.mem_cons_self p rest)).2 h htp
  exact haux remaining (newSheet cfg) hp (sheetInv_newSheet cfg)

theorem consIter_inv {cfg : Config} {sheets : List Sheet}
    (h : ∀ s ∈ sheets, SheetInv cfg s) :
    ∀ s ∈ (consIter cfg sheets).1, SheetInv cfg s := by
  have hsorted : ∀ s ∈ jsSort sheetCmp sheets, SheetInv cfg s := by
    intro s hs
    exact h s ((jsSort_perm sheetCmp sheets).mem_iff.mp hs)
  rw [consIter]
  cases hL : (jsSort sheetCmp sheets).getLast? with
  | none => exact hsorted
  | some lastSheet =>
      dsimp only
      have hlast : SheetInv cfg lastSheet := hsorted lastSheet (getLast?_mem_list hL)
      have htm : ∀ p ∈ lastSheet.pieces, 0 < p.origW ∧ 0 < p.origH := by
        intro p hp
        obtain ⟨_, _, _, h4, h5⟩ := hlast.2.1 p hp
        exact ⟨h4, h5⟩
      have hmp := movePass_inv lastSheet.pieces (jsSort sheetCmp sheets) htm hsorted
      by_cases h0 : ((movePass cfg lastSheet.pieces (jsSort sheetCmp sheets)).2.filter
          id).length = 0
      · rw [if_pos h0]
        exact hsorted
      · rw [if_neg h0]
        by_cases h1 : ((movePass cfg lastSheet.pieces (jsSort sheetCmp sheets)).2.filter
            id).length = lastSheet.pieces.length
        · rw [if_pos h1]
          intro s hs
          exact hmp s (List.mem_of_mem_dropLast hs)
        · rw [if_neg h1]
          intro s hs
          rcases List.mem_append.mp hs with hs | hs
          · exact hmp s (List.mem_of_mem_dropLast hs)
          · rw [List.mem_singleton] at hs
            subst hs
            refine rebuildSheet_inv _ ?_
            intro p hp
            rw [List.mem_filterMap] at hp
            obtain ⟨pf, hpf, hpe⟩ := hp
            have hp1 : pf.1 ∈ lastSheet.pieces := (List.of_mem_zip hpf).1
            have he : pf.1 = p := by
              by_cases hb : pf.2 = true
              · rw [if_pos hb] at hpe
                exact Option.noConfusion hpe
              · rw [if_neg hb] at hpe
                injection hpe
            exact he ▸ htm pf.1 hp1

theorem consolidateGo_inv {cfg : Config} :
    ∀ (n : Nat) (sheets r : List Sheet), consolidateGo cfg n sheets = some r →
      (∀ s ∈ sheets, SheetInv cfg s) → ∀ s ∈ r, SheetInv cfg s := by
  intro n
  induction n with
  | zero => exact fun sheets r h _ => Option.noConfusion h
  | succ n ih =>
      intro sheets r h hs
      rw [consolidateGo] at h
      by_cases h1 : sheets.length ≤ 1
      · rw [if_pos h1] at h
        injection h with h
        exact h ▸ hs
      · rw [if_neg h1] at h
        by_cases h2 : (consIter cfg sheets).2 = true
        · rw [if_pos h2] at h
          exact ih _ r h (consIter_inv hs)
        · rw [if_neg h2] at h
          injection h with h
          exact h ▸ consIter_inv hs

theorem finalResult_inv {cfg : Config} {pieces : List Piece}
    (hp : ∀ p ∈ pieces, 0 < p.width ∧ 0 < p.height) :
    ∀ s ∈ (finalResult cfg pieces).sheets, SheetInv cfg s := by
  have hwin : ∀ s ∈ (winner cfg pieces).sheets, SheetInv cfg s := by
    rw [winner]
    cases hpb : pickBest cfg (allResults cfg pieces) with
    | none => exact fun s hs => absurd hs (List.not_mem_nil _)
    | some b =>
        obtain ⟨f, _, heu, _, hb⟩ := allResults_mem (pickBest_mem hpb)
        simp only [Option.getD]
        rw [hb]
        refine runStrategy_inv _ ?_
        intro p hpp
        exact hp p ((jsSort_perm f pieces).mem_iff.mp hpp)
  rw [finalResult]
  by_cases hc : 1 < (winner cfg pieces).sheets.length
  · rw [if_pos hc, consolidateSheets]
    cases hg : consolidateGo cfg (consFuel (winner cfg pieces).sheets)
        (winner cfg pieces).sheets with
    | none => exact hwin
    | some s2 =>
        simp only
        exact consolidateGo_inv _ _ _ hg hwin
  · rw [if_neg hc]
    exact hwin

theorem not_bodiesOverlap_of_avoids {cfg : Config} {p q : PlacedPiece}
    (hk : 0 ≤ cfg.kerf) (hpB : inBounds cfg p)
    (hR : rectAvoids (body q) p.x (footX2 cfg p) p.y (footY2 cfg p)) :
    ¬ bodiesOverlap p q := by
  intro hov
  obtain ⟨o1, o2, o3, o4⟩ := hov
  have hx2 : p.x + p.w ≤ footX2 cfg p := by
    rw [footX2]
    exact le_min (by linarith) hpB.2.2.1
  have hy2 : p.y + p.h ≤ footY2 cfg p := by
    rw [footY2]
    exact le_min (by linarith) hpB.2.2.2
  dsimp only [body] at hR
  rcases hR with hc | hc | hc | hc <;> linarith

theorem resultScore_unplacedCount (cfg : Config) (r : StratResult) :
    (resultScore cfg r).unplacedCount = r.unplaced.length := rfl

theorem resultScore_sheetCount (cfg : Config) (r : StratResult) :
    (resultScore cfg r).sheetCount = r.sheets.length := rfl

theorem isBetterResult_iff (cfg : Config) (a b : StratResult) :
    isBetterResult cfg a b = true ↔
      (a.unplaced.length < b.unplaced.length ∨
        (a.unplaced.length = b.unplaced.length ∧ a.sheets.length < b.sheets.length) ∨
        (a.unplaced.length = b.unplaced.length ∧ a.sheets.length = b.sheets.length ∧
          (resultScore cfg a).waste < (resultScore cfg b).waste)) := by
  by_cases h1 : a.unplaced.length = b.unplaced.length
  · by_cases h2 : a.sheets.length = b.sheets.length
    · simp [isBetterResult, resultScore_unplacedCount, resultScore_sheetCount, h1, h2]
    · simp [isBetterResult, resultScore_unplacedCount, resultScore_sheetCount, h1, h2]
  · simp [isBetterResult, resultScore_unplacedCount, resultScore_sheetCount, h1]

theorem isBetterResult_irrefl (cfg : Config) (a : StratResult) :
    isBetterResult cfg a a = false := by
  simp [isBetterResult]

theorem isBetterResult_trans {cfg : Config} {a b c : StratResult}
    (h1 : isBetterResult cfg a b = true) (h2 : isBetterResult cfg b c = true) :
    isBetterResult cfg a c = true := by
  rw [isBetterResult_iff] at h1 h2 ⊢
  rcases h1 with h1 | ⟨e1, h1⟩ | ⟨e1, e2, h1⟩ <;> rcases h2 with h2 | ⟨f1, h2⟩ | ⟨f1, f2, h2⟩
  all_goals first
    | (left; omega)
    | (right; left; exact ⟨by omega, by omega⟩)
    | (right; right; exact ⟨by omega, by omega, by linarith⟩)

theorem isBetterResult_false_trans {cfg : Config} {a b c : StratResult}
    (hab : isBetterResult cfg a b = false) (hbc : isBetterResult cfg b c = false) :
    isBetterResult cfg a c = false := by
  rw [← Bool.not_eq_true, isBetterResult_iff] at hab hbc ⊢
  push_neg at hab hbc ⊢
  obtain ⟨h1, h2, h3⟩ := hab
  obtain ⟨g1, g2, g3⟩ := hbc
  refine ⟨by omega, fun he => by omega, fun he hs => ?_⟩
  have e1 : a.unplaced.length = b.unplaced.length := by omega
  have e2 : b.unplaced.length = c.unplaced.length := by omega
  have s1 : b.sheets.length ≤ a.sheets.length := h2 e1
  have s2 : c.sheets.length ≤ b.sheets.length := g2 e2
  have s3 : a.sheets.length = b.sheets.length := by omega
  have s4 : b.sheets.length = c.sheets.length := by omega
  have w1 := h3 e1 s3
  have w2 := g3 e2 s4
  linarith

theorem pickBest_isSome {cfg : Config} {rs : List StratResult} (h : rs ≠ []) :
    ∃ b, pickBest cfg rs = some b := by
  have haux : ∀ (l : List StratResult) (c : StratResult),
      ∃ b, l.foldl (pickStep cfg) (some c) = some b := by
    intro l
    induction l with
    | nil => exact fun c => ⟨c, rfl⟩
    | cons x xs ih =>
        intro c
        rw [List.foldl_cons]
        by_cases hb : isBetterResult cfg x c = true
        · simpa [pickStep, hb] using ih x
        · simpa [pickStep, hb] using ih c
  match rs with
  | [] => exact absurd rfl h
  | r :: rest =>
      rw [pickBest, List.foldl_cons]
      exact haux rest r

theorem pickFold_min {cfg : Config} :
    ∀ (rs : List StratResult) (st : Option StratResult) (b : StratResult),
      rs.foldl (pickStep cfg) st = some b →
      (∀ c, st = some c → isBetterResult cfg c b = false) ∧
      (∀ r ∈ rs, isBetterResult cfg r b = false) := by
  intro rs
  induction rs with
  | nil =>
      intro st b h
      refine ⟨?_, by simp⟩
      intro c hc
      rw [hc] at h
      injection h with h
      subst h
      exact isBetterResult_irrefl cfg c
  | cons r rest ih =>
      intro st b h
      rw [List.foldl_cons] at h
      obtain ⟨h1, h2⟩ := ih _ b h
      match st with
      | none =>
          have hr : isBetterResult cfg r b = false := h1 r rfl
          refine ⟨fun c hc => Option.noConfusion hc, ?_⟩
          intro x hx
          rcases List.mem_cons.mp hx with rfl | hx
          · exact hr
          · exact h2 x hx
      | some c =>
          by_cases hb : isBetterResult cfg r c = true
          · have hr : isBetterResult cfg r b = false :=
              h1 r (by simp [pickStep, hb])
            have hcb : isBetterResult cfg c b = false := by
              cases hcb : isBetterResult cfg c b with
              | false => rfl
              | true =>
                  have htr := isBetterResult_trans hb hcb
                  rw [hr] at htr
                  exact Bool.noConfusion htr
            refine ⟨?_, ?_⟩
            · intro c2 hc2
              injection hc2 with he
              exact he ▸ hcb
            · intro x hx
              rcases List.mem_cons.mp hx with rfl | hx
              · exact hr
              · exact h2 x hx
          · have hcb : isBetterResult cfg c b = false :=
              h1 c (by simp [pickStep, hb])
            have hrc : isBetterResult cfg r c = false := by
              cases hrc : isBetterResult cfg r c with
              | false => rfl
              | true => exact absurd hrc hb
            have hr : isBetterResult cfg r b = false :=
              isBetterResult_false_trans hrc hcb
            refine ⟨?_, ?_⟩
            · intro c2 hc2
              injection hc2 with he
              exact he ▸ hcb
            · intro x hx
              rcases List.mem_cons.mp hx with rfl | hx
              · exact hr
              · exact h2 x hx

theorem pickBest_min {cfg : Config} {rs : List StratResult} {b : StratResult}
    (h : pickBest cfg rs = some b) :
    ∀ r ∈ rs, isBetterResult cfg r b = false :=
  (pickFold_min rs none b h).2

/-! ### Claim C3: the strategy grid and the result order -/

/-- C3: the strategy selector runs exactly 12 independent attempts (the
4 × 3 grid of sort orders and heuristics), each a `runStrategy` call on a
freshly sorted permutation of the same piece list and each starting from
zero sheets; results are compared by "fewer unplaced, then fewer sheets,
then lower waste ratio" where for a nonempty sheet list (and positive sheet
area) the waste equals `1 − totalUsedArea / (sheetCount × sheetArea)`; the
fold keeps a result no attempt strictly beats, and that result is the one
carried into (conditional) consolidation. -/
theorem c3_strategy_grid (pieces : List Piece) (w h k mx : ℚ) (hne : pieces ≠ []) :
    (allResults ⟨w, h, k, mx⟩ pieces).length = 12 ∧
    (allResults ⟨w, h, k, mx⟩ pieces = sortStrategies.flatMap fun f =>
      heuristics.map fun heu => runStrategy ⟨w, h, k, mx⟩ (jsSort f pieces) heu) ∧
    sortStrategies.length = 4 ∧ heuristics.length = 3 ∧
    (∀ f ∈ sortStrategies, (jsSort f pieces).Perm pieces) ∧
    (∀ sorted (heu : Heuristic), runStrategy ⟨w, h, k, mx⟩ sorted heu =
      sorted.foldl (stratStep ⟨w, h, k, mx⟩ heu) ⟨[], []⟩) ∧
    (∀ a b : StratResult, isBetterResult ⟨w, h, k, mx⟩ a b = true ↔
      (a.unplaced.length < b.unplaced.length ∨
        (a.unplaced.length = b.unplaced.length ∧ a.sheets.length < b.sheets.length) ∨
        (a.unplaced.length = b.unplaced.length ∧ a.sheets.length = b.sheets.length ∧
          (resultScore ⟨w, h, k, mx⟩ a).waste < (resultScore ⟨w, h, k, mx⟩ b).waste))) ∧
    (∀ r : StratResult, 0 < r.sheets.length → 0 < w * h →
      (resultScore ⟨w, h, k, mx⟩ r).waste = specWaste ⟨w, h, k, mx⟩ r) ∧
    (∃ b, pickBest ⟨w, h, k, mx⟩ (allResults ⟨w, h, k, mx⟩ pieces) = some b ∧
      b ∈ allResults ⟨w, h, k, mx⟩ pieces ∧
      (∀ r ∈ allResults ⟨w, h, k, mx⟩ pieces, isBetterResult ⟨w, h, k, mx⟩ r b = false) ∧
      winner ⟨w, h, k, mx⟩ pieces = b ∧
      finalResult ⟨w, h, k, mx⟩ pieces =
        (if 1 < b.sheets.length then consolidateSheets ⟨w, h, k, mx⟩ b else b) ∧
      (packPieces pieces w h k mx).unplaced = (finalResult ⟨w, h, k, mx⟩ pieces).unplaced) := by
  have hlen12 : (allResults ⟨w, h, k, mx⟩ pieces).length = 12 := by
    simp [allResults, sortStrategies, heuristics]
  refine ⟨hlen12, rfl, rfl, rfl, fun f _ => jsSort_perm f pieces,
    fun sorted heu => rfl, isBetterResult_iff ⟨w, h, k, mx⟩,
    ?_, ?_⟩
  · intro r hr hwh
    have hpos : (0 : ℚ) < (r.sheets.length : ℚ) * (w * h) := by
      have : (0 : ℚ) < (r.sheets.length : ℚ) := by exact_mod_cast hr
      exact mul_pos this hwh
    simp only [resultScore, specWaste, if_pos hpos]
  · have hne2 : allResults ⟨w, h, k, mx⟩ pieces ≠ [] := by
      intro he
      rw [he] at hlen12
      exact absurd hlen12 (by simp)
    obtain ⟨b, hb⟩ := pickBest_isSome hne2
    refine ⟨b, hb, pickBest_mem hb, pickBest_min hb, ?_, ?_, ?_⟩
    · rw [winner, hb]
      rfl
    · rw [finalResult, winner, hb]
      rfl
    · rw [packPieces_eq pieces w h k mx (by simpa using hne)]

/-- Witness for C3: the grid really has 12 attempts for a concrete input. -/
theorem c3_witness : (allResults ⟨10, 10, 0, 5⟩ [⟨1, 2, 3⟩]).length = 12 :=
  (c3_strategy_grid [⟨1, 2, 3⟩] 10 10 0 5 (by simp)).1

/-! ### Claim C7: the fit search -/

/-- C7: a piece fits a free rectangle in an orientation exactly when the
placed dimensions are bounded by the rectangle's (`noOrientFits` spells out
both orientations, the rotated one being an option exactly when
`pw ≠ ph`); the three heuristics score a candidate by the stated
lexicographic triples with `positionScore = r.y * sheetW + r.x` as the
final tiebreak; and `findBestFit` returns a legal fitting candidate that no
orientation on any free rectangle strictly beats, or `none` exactly when
nothing fits. -/
theorem c7_fit_search (cfg : Config) (sheet : Sheet) (pw ph : ℚ) (heu : Heuristic) :
    (∀ r : FreeRect,
      scoreFit cfg r pw ph .bssf =
        ⟨min (r.w - pw) (r.h - ph), max (r.w - pw) (r.h - ph), r.y * cfg.sheetW + r.x⟩ ∧
      scoreFit cfg r pw ph .blsf =
        ⟨max (r.w - pw) (r.h - ph), min (r.w - pw) (r.h - ph), r.y * cfg.sheetW + r.x⟩ ∧
      scoreFit cfg r pw ph .baf =
        ⟨(r.w - pw) * (r.h - ph) + (r.w - pw) + (r.h - ph), min (r.w - pw) (r.h - ph),
          r.y * cfg.sheetW + r.x⟩) ∧
    (∀ a b : Score, isBetterScore a b = true ↔
      (a.primary < b.primary ∨
        (a.primary = b.primary ∧ a.secondary < b.secondary) ∨
        (a.primary = b.primary ∧ a.secondary = b.secondary ∧
          a.positionScore < b.positionScore))) ∧
    (findBestFit cfg sheet pw ph heu = none ↔
      ∀ r ∈ sheet.freeRects, noOrientFits pw ph r) ∧
    (∀ fit : Fit, findBestFit cfg sheet pw ph heu = some fit →
      fit.rect ∈ sheet.freeRects ∧ orientOk pw ph fit.rect fit.w fit.h ∧
        fit.score = scoreFit cfg fit.rect fit.w fit.h heu ∧
        ∀ r ∈ sheet.freeRects, noBetterCand cfg pw ph heu r fit.score) := by
  refine ⟨fun r => ⟨rfl, rfl, rfl⟩, isBetterScore_iff,
    findBestFit_none_iff cfg sheet pw ph heu, ?_⟩
  intro fit h
  have hs := findBestFit_some_spec cfg sheet pw ph heu fit h
  exact ⟨hs.1, hs.2.1, hs.2.2.1, hs.2.2.2.1⟩

/-- Witness for C7: the fresh-sheet fit of a 3 × 4 piece under BSSF. -/
theorem c7_witness :
    (⟨⟨0, 0, 10, 10⟩, 3, 4, false, ⟨6, 7, 0⟩⟩ : Fit).rect ∈
        (newSheet ⟨10, 10, 0, 1⟩).freeRects ∧
      orientOk 3 4 (⟨⟨0, 0, 10, 10⟩, 3, 4, false, ⟨6, 7, 0⟩⟩ : Fit).rect
        (⟨⟨0, 0, 10, 10⟩, 3, 4, false, ⟨6, 7, 0⟩⟩ : Fit).w
        (⟨⟨0, 0, 10, 10⟩, 3, 4, false, ⟨6, 7, 0⟩⟩ : Fit).h ∧
      (⟨⟨0, 0, 10, 10⟩, 3, 4, false, ⟨6, 7, 0⟩⟩ : Fit).score =
        scoreFit ⟨10, 10, 0, 1⟩ (⟨⟨0, 0, 10, 10⟩, 3, 4, false, ⟨6, 7, 0⟩⟩ : Fit).rect
          (⟨⟨0, 0, 10, 10⟩, 3, 4, false, ⟨6, 7, 0⟩⟩ : Fit).w
          (⟨⟨0, 0, 10, 10⟩, 3, 4, false, ⟨6, 7, 0⟩⟩ : Fit).h .bssf ∧
      ∀ r ∈ (newSheet ⟨10, 10, 0, 1⟩).freeRects,
        noBetterCand ⟨10, 10, 0, 1⟩ 3 4 .bssf r
          (⟨⟨0, 0, 10, 10⟩, 3, 4, false, ⟨6, 7, 0⟩⟩ : Fit).score :=
  (c7_fit_search ⟨10, 10, 0, 1⟩ (newSheet ⟨10, 10, 0, 1⟩) 3 4 .bssf).2.2.2
    ⟨⟨0, 0, 10, 10⟩, 3, 4, false, ⟨6, 7, 0⟩⟩ (by with_unfolding_all decide)

/-! ### Claim C4: the sheet cap is respected -/

/-- C4: with an integral sheet cap `m ≥ 1` the sheet count never exceeds
`m`: at every point during packing (each `runStrategy` step preserves
`length ≤ m`, starting from zero sheets), consolidation never increases the
sheet count, and the final `PackingResult` has at most `m` sheets. -/
theorem c4_sheet_cap (pieces : List Piece) (sheetW sheetH kerf : ℚ) (m : ℕ)
    (_hm : 1 ≤ m) :
    (∀ (heu : Heuristic) (st : StratResult) (piece : Piece),
      st.sheets.length ≤ m →
      (stratStep ⟨sheetW, sheetH, kerf, (m : ℚ)⟩ heu st piece).sheets.length ≤ m) ∧
    (∀ (sorted : List Piece) (heu : Heuristic),
      (runStrategy ⟨sheetW, sheetH, kerf, (m : ℚ)⟩ sorted heu).sheets.length ≤ m) ∧
    (∀ (n : Nat) (sheets r : List Sheet),
      consolidateGo ⟨sheetW, sheetH, kerf, (m : ℚ)⟩ n sheets = some r →
      r.length ≤ sheets.length) ∧
    (packPieces pieces sheetW sheetH kerf (m : ℚ)).sheets.length ≤ m := by
  refine ⟨fun heu st piece h => stratStep_length_le rfl st piece h,
    fun sorted heu => runStrategy_length_le rfl sorted heu,
    fun n sheets r h => consolidateGo_length_le _ n sheets r h, ?_⟩
  by_cases hne : pieces.length = 0
  · unfold packPieces
    rw [if_pos hne]
    exact Nat.zero_le m
  · rw [packPieces_eq pieces sheetW sheetH kerf (m : ℚ) hne]
    simp only [List.length_map]
    have hw : (winner ⟨sheetW, sheetH, kerf, (m : ℚ)⟩ pieces).sheets.length ≤ m := by
      rw [winner]
      cases hpb : pickBest ⟨sheetW, sheetH, kerf, (m : ℚ)⟩
          (allResults ⟨sheetW, sheetH, kerf, (m : ℚ)⟩ pieces) with
      | none => exact Nat.zero_le m
      | some b =>
          obtain ⟨f, hf, heu, hh, hb⟩ := allResults_mem (pickBest_mem hpb)
          simp only [Option.getD]
          rw [hb]
          exact runStrategy_length_le rfl _ _
    rw [finalResult]
    by_cases hc : 1 < (winner ⟨sheetW, sheetH, kerf, (m : ℚ)⟩ pieces).sheets.length
    · rw [if_pos hc, consolidateSheets]
      cases hg : consolidateGo ⟨sheetW, sheetH, kerf, (m : ℚ)⟩
          (consFuel (winner ⟨sheetW, sheetH, kerf, (m : ℚ)⟩ pieces).sheets)
          (winner ⟨sheetW, sheetH, kerf, (m : ℚ)⟩ pieces).sheets with
      | none => exact hw
      | some s =>
          simp only
          exact le_trans (consolidateGo_length_le _ _ _ _ hg) hw
    · rw [if_neg hc]
      exact hw

/-- Witness for C4: one piece, cap 1. -/
theorem c4_witness :
    (packPieces [⟨1, 2, 3⟩] 10 10 0 ((1 : ℕ) : ℚ)).sheets.length ≤ 1 :=
  (c4_sheet_cap [⟨1, 2, 3⟩] 10 10 0 1 (le_refl 1)).2.2.2

/-! ### Claim C9: empty input -/

/-- C9: for every sheet width, height, kerf and sheet cap, the engine maps
an empty piece list to the empty result (no sheets, no unplaced entries, no
suggestions) without failing. -/
theorem c9_empty_input (sheetW sheetH kerf maxSheets : ℚ) :
    packPieces [] sheetW sheetH kerf maxSheets = ⟨[], [], []⟩ := rfl

/-! ### Claim C10: determinism -/

/-- C10: the engine is deterministic — two calls with equal piece lists and
equal sheet width, height, kerf and cap return equal results. -/
theorem c10_deterministic (p1 p2 : List Piece) (w1 w2 h1 h2 k1 k2 m1 m2 : ℚ)
    (hp : p1 = p2) (hw : w1 = w2) (hh : h1 = h2) (hk : k1 = k2) (hm : m1 = m2) :
    packPieces p1 w1 h1 k1 m1 = packPieces p2 w2 h2 k2 m2 := by
  subst hp hw hh hk hm
  rfl

/-- Witness for C10 at a concrete input. -/
theorem c10_witness :
    packPieces [⟨1, 2, 3⟩] 10 10 0 1 = packPieces [⟨1, 2, 3⟩] 10 10 0 1 :=
  c10_deterministic [⟨1, 2, 3⟩] [⟨1, 2, 3⟩] 10 10 10 10 0 0 1 1 rfl rfl rfl rfl rfl

/-! ### Claim C8 (counterexample): no boundary validation exists -/

/-- C8 is false as stated: called with a non-positive sheet width (a caller
contract violation), the engine does not fail fast; it proceeds and returns
an ordinary `PackingResult`, tagging the piece `Too large for sheet`. -/
theorem c8_counterexample :
    packPieces [⟨1, 10, 10⟩] 0 100 0 1 =
      ⟨[], [⟨⟨1, 10, 10⟩, "Too large for sheet"⟩], []⟩ := by
  with_unfolding_all decide

theorem runStrategy_degenerate {cfg : Config} (hW : cfg.sheetW ≤ 0) (heu : Heuristic)
    (l : List Piece) (hl : ∀ p ∈ l, 0 < p.width ∧ 0 < p.height) :
    runStrategy cfg l heu = ⟨[], l.map fun p => ⟨p, "Too large for sheet"⟩⟩ := by
  have haux : ∀ (l : List Piece) (u : List Unplaced),
      (∀ p ∈ l, 0 < p.width ∧ 0 < p.height) →
      l.foldl (stratStep cfg heu) ⟨[], u⟩ =
        ⟨[], u ++ l.map fun p => ⟨p, "Too large for sheet"⟩⟩ := by
    intro l
    induction l with
    | nil => intro u _; simp
    | cons p ps ih =>
        intro u hl
        have hp := hl p (List.mem_cons_self p ps)
        have hfit : ¬ ((p.width ≤ cfg.sheetW ∧ p.height ≤ cfg.sheetH) ∨
            (p.height ≤ cfg.sheetW ∧ p.width ≤ cfg.sheetH)) := by
          rintro (⟨h1, _⟩ | ⟨h1, _⟩) <;> linarith [hp.1, hp.2]
        rw [List.foldl_cons]
        have hstep : stratStep cfg heu ⟨[], u⟩ p =
            ⟨[], u ++ [⟨p, "Too large for sheet"⟩]⟩ := by
          rw [stratStep, if_neg hfit]
        rw [hstep, ih _ (fun q hq => hl q (List.mem_cons_of_mem p hq))]
        simp
  simpa using haux l [] hl

theorem resultScore_waste_nil (cfg : Config) (u : List Unplaced) :
    (resultScore cfg (⟨[], u⟩ : StratResult)).waste = 0 := by
  simp [resultScore]

theorem isBetterResult_false_of_scores {cfg : Config} {a b : StratResult}
    (h1 : a.unplaced.length = b.unplaced.length) (h2 : a.sheets.length = b.sheets.length)
    (h3 : (resultScore cfg a).waste = (resultScore cfg b).waste) :
    isBetterResult cfg a b = false := by
  rw [← Bool.not_eq_true, isBetterResult_iff]
  rintro (h | ⟨e1, h⟩ | ⟨e1, e2, h⟩)
  · omega
  · omega
  · rw [h3] at h
    exact lt_irrefl _ h

theorem pickBest_head {cfg : Config} {r0 : StratResult} {rest : List StratResult}
    (h : ∀ r ∈ rest, isBetterResult cfg r r0 = false) :
    pickBest cfg (r0 :: rest) = some r0 := by
  have haux : ∀ (l : List StratResult) (c : StratResult),
      (∀ r ∈ l, isBetterResult cfg r c = false) →
      l.foldl (pickStep cfg) (some c) = some c := by
    intro l
    induction l with
    | nil => intro c _; rfl
    | cons x xs ih =>
        intro c hc
        rw [List.foldl_cons]
        have hx : pickStep cfg (some c) x = some c := by
          simp [pickStep, hc x (List.mem_cons_self x xs)]
        rw [hx]
        exact ih c fun r hr => hc r (List.mem_cons_of_mem x hr)
  rw [pickBest, List.foldl_cons]
  exact haux rest r0 h

/-! ### Claim C8 (amended): degenerate inputs are processed, not rejected -/

/-- C8 (amended): the engine performs no boundary validation and never
throws; in particular, with a non-positive sheet width and pieces of
positive dimensions, every strategy marks every piece `Too large for
sheet`, so the result has no sheets and lists every input piece (in the
area-descending order of the first sort strategy, a permutation of the
input) as unplaced. -/
theorem c8_amended (pieces : List Piece) (sheetW sheetH kerf maxSheets : ℚ)
    (hp : ∀ p ∈ pieces, 0 < p.width ∧ 0 < p.height) (hW : sheetW ≤ 0) :
    (packPieces pieces sheetW sheetH kerf maxSheets).sheets = [] ∧
    (packPieces pieces sheetW sheetH kerf maxSheets).unplaced =
      (jsSort cmpArea pieces).map (fun p => ⟨p, "Too large for sheet"⟩) ∧
    (jsSort cmpArea pieces).Perm pieces := by
  by_cases hne : pieces.length = 0
  · have hnil : pieces = [] := List.length_eq_zero.mp hne
    subst hnil
    exact ⟨rfl, rfl, List.Perm.refl _⟩
  · have hruns : ∀ f ∈ sortStrategies, ∀ heu : Heuristic,
        runStrategy ⟨sheetW, sheetH, kerf, maxSheets⟩ (jsSort f pieces) heu =
          ⟨[], (jsSort f pieces).map fun p => ⟨p, "Too large for sheet"⟩⟩ := by
      intro f _ heu
      exact runStrategy_degenerate hW heu _
        (fun p hp2 => hp p ((jsSort_perm f pieces).subset hp2))
    obtain ⟨rest, hhead⟩ : ∃ rest,
        allResults ⟨sheetW, sheetH, kerf, maxSheets⟩ pieces =
          runStrategy ⟨sheetW, sheetH, kerf, maxSheets⟩ (jsSort cmpArea pieces) .bssf ::
            rest := ⟨_, rfl⟩
    have hb0 : runStrategy ⟨sheetW, sheetH, kerf, maxSheets⟩ (jsSort cmpArea pieces) .bssf =
        ⟨[], (jsSort cmpArea pieces).map fun p => ⟨p, "Too large for sheet"⟩⟩ :=
      hruns cmpArea (by simp [sortStrategies]) .bssf
    have hrest : ∀ r ∈ rest,
        isBetterResult ⟨sheetW, sheetH, kerf, maxSheets⟩ r
          (runStrategy ⟨sheetW, sheetH, kerf, maxSheets⟩ (jsSort cmpArea pieces) .bssf) =
          false := by
      intro r hr
      have hrall : r ∈ allResults ⟨sheetW, sheetH, kerf, maxSheets⟩ pieces := by
        rw [hhead]
        exact List.mem_cons_of_mem _ hr
      obtain ⟨f, hf, heu, _, he⟩ := allResults_mem hrall
      rw [he, hruns f hf heu, hb0]
      refine isBetterResult_false_of_scores ?_ rfl ?_
      · simp [jsSort_length]
      · rw [resultScore_waste_nil, resultScore_waste_nil]
    have hpb : pickBest ⟨sheetW, sheetH, kerf, maxSheets⟩
        (allResults ⟨sheetW, sheetH, kerf, maxSheets⟩ pieces) =
        some (runStrategy ⟨sheetW, sheetH, kerf, maxSheets⟩ (jsSort cmpArea pieces) .bssf) := by
      rw [hhead]
      exact pickBest_head hrest
    have hwin : winner ⟨sheetW, sheetH, kerf, maxSheets⟩ pieces =
        ⟨[], (jsSort cmpArea pieces).map fun p => ⟨p, "Too large for sheet"⟩⟩ := by
      rw [winner, hpb]
      exact hb0
    have hfin : finalResult ⟨sheetW, sheetH, kerf, maxSheets⟩ pieces =
        ⟨[], (jsSort cmpArea pieces).map fun p => ⟨p, "Too large for sheet"⟩⟩ := by
      rw [finalResult, hwin]
      rw [if_neg (by simp)]
    rw [packPieces_eq pieces sheetW sheetH kerf maxSheets hne, hfin]
    exact ⟨rfl, rfl, jsSort_perm cmpArea pieces⟩

/-- Witness for `c8_amended`: piece 5 × 7 with sheet width −3. -/
theorem c8_witness :
    (packPieces [⟨1, 5, 7⟩] (-3) 10 0 2).sheets = [] ∧
    (packPieces [⟨1, 5, 7⟩] (-3) 10 0 2).unplaced =
      (jsSort cmpArea [⟨1, 5, 7⟩]).map (fun p => ⟨p, "Too large for sheet"⟩) ∧
    (jsSort cmpArea [⟨1, 5, 7⟩]).Perm [⟨1, 5, 7⟩] :=
  c8_amended [⟨1, 5, 7⟩] (-3) 10 0 2
    (by
      intro p hp
      rw [List.mem_singleton] at hp
      subst hp
      exact ⟨by norm_num, by norm_num⟩)
    (by norm_num)

/-! ### Claim C2 (code bug): a piece is silently dropped -/

/-- C2 exhibits a code bug: on this input (sheet 100 × 80, kerf 10, cap 2,
four pieces), consolidation moves two pieces off the last sheet, rebuilds
it, and the re-insertion of piece 3 (85 × 7) fails; the failure is ignored
(`tryPlace`'s return value is dropped at the rebuild), so the result
contains only 3 of the 4 pieces: piece 3 is neither placed nor unplaced. -/
theorem c2_piece_dropped :
    (((packPieces [⟨1, 64, 76⟩, ⟨2, 65, 27⟩, ⟨3, 85, 7⟩, ⟨4, 14, 7⟩] 100 80 10 2).sheets.map
        fun s => s.pieces.length).sum +
      (packPieces [⟨1, 64, 76⟩, ⟨2, 65, 27⟩, ⟨3, 85, 7⟩, ⟨4, 14, 7⟩] 100 80 10 2).unplaced.length
        = 3) ∧
    (∀ os ∈ (packPieces [⟨1, 64, 76⟩, ⟨2, 65, 27⟩, ⟨3, 85, 7⟩, ⟨4, 14, 7⟩] 100 80 10 2).sheets,
      ∀ p ∈ os.pieces, p.id ≠ 3) ∧
    (∀ u ∈ (packPieces [⟨1, 64, 76⟩, ⟨2, 65, 27⟩, ⟨3, 85, 7⟩, ⟨4, 14, 7⟩] 100 80 10 2).unplaced,
      u.piece.id ≠ 3) := by
  with_unfolding_all decide

/-! ### Claim C1 (counterexample): kerf-inflated footprints can overlap -/

/-- C1 is false as stated: on this valid input (positive piece dimensions,
sheet 100 × 100 > 0, kerf 10 ≥ 0, cap 5 ≥ 1) the engine returns one sheet
holding three pieces, and the kerf-inflated, sheet-clipped footprints of
pieces 2 and 3 intersect (on `[45, 50) × [90, 95)`). -/
theorem c1_counterexample :
    (packPieces [⟨1, 35, 80⟩, ⟨2, 20, 85⟩, ⟨3, 40, 8⟩] 100 100 10 5).sheets.map
        (fun s => s.pieces) =
      [[⟨0, 0, 35, 80, false, 1, 35, 80⟩, ⟨45, 0, 20, 85, false, 2, 20, 85⟩,
        ⟨0, 90, 40, 8, false, 3, 40, 8⟩]] ∧
    footOverlap ⟨100, 100, 10, 5⟩ ⟨45, 0, 20, 85, false, 2, 20, 85⟩
      ⟨0, 90, 40, 8, false, 3, 40, 8⟩ := by
  with_unfolding_all decide

/-! ### Claim C1 (amended): bodies stay in bounds and disjoint -/

/-- C1, amended: for every valid input (positive piece dimensions, positive
sheet dimensions, kerf ≥ 0, cap ≥ 1), in the returned result every placed
piece's rectangle `[x, x+w] × [y, y+h]` lies within
`[0, sheetW] × [0, sheetH]`, and the bodies of distinct pieces on the same
sheet do not intersect.  (The kerf-inflated footprints may overlap in their
kerf margins — see the counterexample — so the claim's footprint-disjointness
is weakened to body-disjointness.) -/
theorem c1_amended (pieces : List Piece) (sheetW sheetH kerf maxSheets : ℚ)
    (_hW : 0 < sheetW) (_hH : 0 < sheetH) (hk : 0 ≤ kerf) (_hM : 1 ≤ maxSheets)
    (hp : ∀ p ∈ pieces, 0 < p.width ∧ 0 < p.height) :
    ∀ os ∈ (packPieces pieces sheetW sheetH kerf maxSheets).sheets,
      (∀ p ∈ os.pieces, inBounds ⟨sheetW, sheetH, kerf, maxSheets⟩ p) ∧
      List.Pairwise (fun p q => ¬ bodiesOverlap p q) os.pieces := by
  by_cases hne : pieces.length = 0
  · unfold packPieces
    rw [if_pos hne]
    intro os hos
    exact absurd hos (List.not_mem_nil _)
  · rw [packPieces_eq pieces sheetW sheetH kerf maxSheets hne]
    intro os hos
    have hos2 : os ∈ (finalResult ⟨sheetW, sheetH, kerf, maxSheets⟩ pieces).sheets.map
        (finalizeSheet ⟨sheetW, sheetH, kerf, maxSheets⟩) := hos
    obtain ⟨s, hs, he⟩ := List.mem_map.mp hos2
    have hsv := finalResult_inv hp s hs
    have hpieces : os.pieces = s.pieces := by
      rw [← he]
      rfl
    rw [hpieces]
    constructor
    · intro p hpp
      exact (hsv.2.1 p hpp).1
    · refine List.Pairwise.imp_of_mem ?_ hsv.2.2.2
      intro a b ha _ hR
      exact not_bodiesOverlap_of_avoids hk (hsv.2.1 a ha).1 hR

/-- Witness for C1 (amended) at the counterexample input: the second placed
piece lies within the sheet bounds. -/
theorem c1_amended_witness :
    inBounds ⟨100, 100, 10, 5⟩ ⟨45, 0, 20, 85, false, 2, 20, 85⟩ := by
  have h := c1_amended [⟨1, 35, 80⟩, ⟨2, 20, 85⟩, ⟨3, 40, 8⟩] 100 100 10 5
    (by norm_num) (by norm_num) (by norm_num) (by norm_num)
    (by intro p hp; fin_cases hp <;> exact ⟨by norm_num, by norm_num⟩)
  have hlen : (packPieces [⟨1, 35, 80⟩, ⟨2, 20, 85⟩, ⟨3, 40, 8⟩] 100 100 10 5).sheets.length
      = 1 := by
    with_unfolding_all decide
  have hne : (packPieces [⟨1, 35, 80⟩, ⟨2, 20, 85⟩, ⟨3, 40, 8⟩] 100 100 10 5).sheets ≠ [] := by
    intro he
    rw [he] at hlen
    exact absurd hlen (by decide)
  have h2 := h
    ((packPieces [⟨1, 35, 80⟩, ⟨2, 20, 85⟩, ⟨3, 40, 8⟩] 100 100 10 5).sheets.getD 0 default)
    (getD_zero_mem _ hne)
  exact h2.1 ⟨45, 0, 20, 85, false, 2, 20, 85⟩ (by with_unfolding_all decide)

/-! ### Claim C6 (amended): insertion into the free set -/

/-- C6, amended at the 0.5 boundary: an insertion replaces each intersected
free rectangle by up to four remainders of the consumed kerf-inflated,
sheet-clipped area (the definitional first conjunct shows the exact
pipeline: split, filter, prune); a remainder is kept exactly when both
dimensions are strictly greater than 0.5 (not "at least 0.5" as claimed) —
every surviving rectangle satisfies that and is a remainder of (or equal
to) an original free rectangle, disjoint from the consumed area; and
afterwards no free rectangle is contained in another. -/
theorem c6_amended (cfg : Config) (sheet : Sheet) (x y w h : ℚ) :
    ((placeRect cfg sheet x y w h).freeRects =
      pruneOuter (((placeRectRaw cfg sheet.freeRects x y w h).filter fun r =>
        decide (1 / 2 < r.w) && decide (1 / 2 < r.h)).map some)) ∧
    (∀ r2 ∈ (placeRect cfg sheet x y w h).freeRects,
      (1 / 2 < r2.w ∧ 1 / 2 < r2.h) ∧
      ∃ r ∈ sheet.freeRects, rectInside r2 r ∧
        rectAvoids r2 x (min (x + w + cfg.kerf) cfg.sheetW) y
          (min (y + h + cfg.kerf) cfg.sheetH)) ∧
    List.Pairwise (fun a b => isContained a b = false ∧ isContained b a = false)
      (placeRect cfg sheet x y w h).freeRects :=
  ⟨rfl, (placeRect_spec cfg sheet x y w h).1, (placeRect_spec cfg sheet x y w h).2.1⟩

/-- Witness for C6 (amended): inserting a 40 × 40 piece into a fresh
100 × 100 sheet (kerf 0) keeps the remainder `(40, 0, 60, 100)`. -/
theorem c6_witness :
    ((1 : ℚ) / 2 < (⟨40, 0, 60, 100⟩ : FreeRect).w ∧
      (1 : ℚ) / 2 < (⟨40, 0, 60, 100⟩ : FreeRect).h) ∧
    ∃ r ∈ (newSheet ⟨100, 100, 0, 1⟩).freeRects,
      rectInside ⟨40, 0, 60, 100⟩ r ∧
      rectAvoids ⟨40, 0, 60, 100⟩ 0 (min (0 + 40 + (0 : ℚ)) 100) 0
        (min (0 + 40 + (0 : ℚ)) 100) :=
  (c6_amended ⟨100, 100, 0, 1⟩ (newSheet ⟨100, 100, 0, 1⟩) 0 0 40 40).2.1
    ⟨40, 0, 60, 100⟩ (by with_unfolding_all decide)

/-! ### Claim C6 (counterexample): the 0.5 boundary is exclusive -/

/-- C6 is false as stated at the boundary: inserting a 99.5 × 99.5 placement
into a fresh 100 × 100 sheet (kerf 0) produces a remainder of width exactly
0.5 — which the claim says is kept ("at least 0.5") — yet the source's
filter (`w > 0.5 && h > 0.5`) discards it: the resulting free set is empty. -/
theorem c6_counterexample :
    ((⟨199 / 2, 0, 1 / 2, 100⟩ : FreeRect) ∈
        placeRectRaw ⟨100, 100, 0, 1⟩ [⟨0, 0, 100, 100⟩] 0 0 (199 / 2) (199 / 2)) ∧
    keptAtLeastHalf ⟨199 / 2, 0, 1 / 2, 100⟩ ∧
    (placeRect ⟨100, 100, 0, 1⟩ ⟨[⟨0, 0, 100, 100⟩], [], 0⟩ 0 0 (199 / 2)
        (199 / 2)).freeRects = [] := by
  with_unfolding_all decide

/-! ### Consolidation termination: list-level helper lemmas -/

theorem forall2_refl_usedArea (l : List Sheet) :
    List.Forall₂ (fun a b => b.usedArea ≤ a.usedArea) l l := by
  induction l with
  | nil => exact List.Forall₂.nil
  | cons x t ih => exact List.Forall₂.cons (le_refl _) ih

theorem forall2_trans_usedArea {a b c : List Sheet}
    (h1 : List.Forall₂ (fun x y => y.usedArea ≤ x.usedArea) a b)
    (h2 : List.Forall₂ (fun x y => y.usedArea ≤ x.usedArea) b c) :
    List.Forall₂ (fun x y => y.usedArea ≤ x.usedArea) a c := by
  induction h1 generalizing c with
  | nil => cases h2; exact List.Forall₂.nil
  | cons hxy _ ih =>
      cases h2 with
      | cons hyz h2t => exact List.Forall₂.cons (le_trans hyz hxy) (ih h2t)

theorem forall2_exists_right {R : Sheet → Sheet → Prop} :
    ∀ {l1 l2 : List Sheet}, List.Forall₂ R l1 l2 → ∀ a ∈ l1, ∃ b ∈ l2, R a b := by
  intro l1 l2 h
  induction h with
  | nil => exact fun a ha => absurd ha (List.not_mem_nil a)
  | cons hxy hrest ih =>
      intro a ha
      rcases List.mem_cons.mp ha with rfl | ha
      · exact ⟨_, List.mem_cons_self _ _, hxy⟩
      · obtain ⟨b, hb, hr⟩ := ih a ha
        exact ⟨b, List.mem_cons_of_mem _ hb, hr⟩

theorem forall2_set_usedArea {l : List Sheet} {x : Sheet} :
    ∀ {i : Nat}, (l.getD i default).usedArea ≤ x.usedArea →
    List.Forall₂ (fun a b => b.usedArea ≤ a.usedArea) (l.set i x) l := by
  induction l with
  | nil => exact fun _ => List.Forall₂.nil
  | cons a t ih =>
      intro i h
      match i with
      | 0 => exact List.Forall₂.cons h (forall2_refl_usedArea t)
      | j + 1 => exact List.Forall₂.cons (le_refl _) (ih h)

theorem getD_mem {α : Type} [Inhabited α] {l : List α} :
    ∀ {i : Nat}, i < l.length → l.getD i default ∈ l := by
  induction l with
  | nil => exact fun h => absurd h (Nat.not_lt_zero _)
  | cons a t ih =>
      intro i h
      match i with
      | 0 => exact List.mem_cons_self a t
      | j + 1 => exact List.mem_cons_of_mem a (ih (Nat.lt_of_succ_lt_succ h))

theorem getLast?_set {l : List Sheet} {i : Nat} {x : Sheet} (h : i + 1 < l.length) :
    (l.set i x).getLast? = l.getLast? := by
  rw [List.getLast?_eq_getElem?, List.getLast?_eq_getElem?, List.length_set]
  exact List.getElem?_set_ne (by omega)

theorem totalPieces_cons (a : Sheet) (t : List Sheet) :
    totalPieces (a :: t) = a.pieces.length + totalPieces t := by
  simp [totalPieces]

theorem totalPieces_append (a b : List Sheet) :
    totalPieces (a ++ b) = totalPieces a + totalPieces b := by
  rw [totalPieces, totalPieces, totalPieces, List.map_append, List.sum_append]

theorem totalPieces_perm {a b : List Sheet} (h : a.Perm b) : totalPieces a = totalPieces b :=
  List.Perm.sum_eq (h.map _)

theorem totalPieces_set {l : List Sheet} {x : Sheet} :
    ∀ {i : Nat}, i < l.length →
    totalPieces (l.set i x) + (l.getD i default).pieces.length =
      totalPieces l + x.pieces.length := by
  induction l with
  | nil => exact fun h => absurd h (Nat.not_lt_zero _)
  | cons a t ih =>
      intro i h
      match i with
      | 0 =>
          have hg : (a :: t).getD 0 default = a := rfl
          rw [List.set, hg]
          rw [totalPieces_cons, totalPieces_cons]
          omega
      | j + 1 =>
          have hg : (a :: t).getD (j + 1) default = t.getD j default := rfl
          rw [List.set, hg]
          rw [totalPieces_cons, totalPieces_cons]
          have := ih (Nat.lt_of_succ_lt_succ h) (i := j)
          omega

theorem totalPieces_dropLast {l : List Sheet} {a : Sheet} (hL : l.getLast? = some a) :
    totalPieces l.dropLast + a.pieces.length = totalPieces l := by
  have hne : l ≠ [] := by
    intro he
    rw [he] at hL
    exact Option.noConfusion hL
  have ha : l.getLast hne = a := by
    have h2 := List.getLast?_eq_getLast l hne
    rw [hL] at h2
    injection h2 with h2
    exact h2.symm
  have hsplit : l.dropLast ++ [a] = l := by
    rw [← ha]
    exact List.dropLast_append_getLast hne
  calc totalPieces l.dropLast + a.pieces.length
      = totalPieces (l.dropLast ++ [a]) := by
        rw [totalPieces_append, totalPieces_cons]
        simp [totalPieces]
    _ = totalPieces l := by rw [hsplit]

theorem lastSortedCount_le_totalPieces (sheets : List Sheet) :
    lastSortedCount sheets ≤ totalPieces sheets := by
  rw [lastSortedCount]
  cases hL : (jsSort sheetCmp sheets).getLast? with
  | none => exact Nat.zero_le _
  | some s =>
      have hmem : s ∈ sheets :=
        (jsSort_perm sheetCmp sheets).subset (getLast?_mem_list hL)
      have hmem2 : s.pieces.length ∈ sheets.map fun t => t.pieces.length :=
        List.mem_map_of_mem _ hmem
      exact List.single_le_sum (fun x _ => Nat.zero_le x) _ hmem2

/-! ### Consolidation termination: the sort keeps a minimal sheet last -/

theorem insertSorted_sheetCmp_pairwise (x : Sheet) {l : List Sheet}
    (h : l.Pairwise fun a b => b.usedArea ≤ a.usedArea) :
    (insertSorted sheetCmp x l).Pairwise fun a b => b.usedArea ≤ a.usedArea := by
  induction l with
  | nil => exact List.pairwise_singleton _ _
  | cons y ys ih =>
      rw [insertSorted]
      rw [List.pairwise_cons] at h
      by_cases hc : sheetCmp x y < 0
      · rw [if_pos hc]
        rw [sheetCmp] at hc
        refine List.Pairwise.cons ?_ (List.pairwise_cons.mpr h)
        intro z hz
        rcases List.mem_cons.mp hz with rfl | hz
        · linarith
        · have h2 := h.1 z hz
          linarith
      · rw [if_neg hc]
        rw [sheetCmp] at hc
        refine List.Pairwise.cons ?_ (ih h.2)
        intro z hz
        have hz2 : z ∈ x :: ys := (insertSorted_perm sheetCmp x ys).subset hz
        rcases List.mem_cons.mp hz2 with rfl | hz2
        · linarith
        · exact h.1 z hz2

theorem jsSort_sheetCmp_pairwise (l : List Sheet) :
    (jsSort sheetCmp l).Pairwise fun a b => b.usedArea ≤ a.usedArea := by
  have haux : ∀ (l acc : List Sheet),
      (acc.Pairwise fun a b => b.usedArea ≤ a.usedArea) →
      ((l.foldl (fun a x => insertSorted sheetCmp x a) acc).Pairwise
        fun a b => b.usedArea ≤ a.usedArea) := by
    intro l
    induction l with
    | nil => exact fun acc h => h
    | cons x xs ih =>
        intro acc h
        exact ih _ (insertSorted_sheetCmp_pairwise x h)
  exact haux l [] List.Pairwise.nil

theorem pairwise_getLast_min {l : List Sheet} {a : Sheet}
    (h : l.Pairwise fun a b => b.usedArea ≤ a.usedArea) (hL : l.getLast? = some a) :
    ∀ s ∈ l, a.usedArea ≤ s.usedArea := by
  induction l with
  | nil => exact fun s hs => absurd hs (List.not_mem_nil s)
  | cons x t ih =>
      rw [List.pairwise_cons] at h
      cases t with
      | nil =>
          have hax : a = x := by
            rw [List.getLast?_singleton] at hL
            injection hL with h2
            exact h2.symm
          intro s hs
          rw [List.mem_singleton] at hs
          rw [hax, hs]
      | cons y u =>
          have hL2 : (y :: u).getLast? = some a := by
            rw [List.getLast?_cons_cons] at hL
            exact hL
          intro s hs
          rcases List.mem_cons.mp hs with rfl | hs
          · exact h.1 a (getLast?_mem_list hL2)
          · exact ih h.2 hL2 s hs

theorem insertSorted_eq_append {x : Sheet} {l : List Sheet}
    (h : ∀ y ∈ l, ¬ sheetCmp x y < 0) :
    insertSorted sheetCmp x l = l ++ [x] := by
  induction l with
  | nil => rfl
  | cons y ys ih =>
      rw [insertSorted, if_neg (h y (List.mem_cons_self y ys)),
        ih fun z hz => h z (List.mem_cons_of_mem y hz)]
      rfl

theorem jsSort_min_last {l : List Sheet} {r : Sheet}
    (h : ∀ s ∈ l, r.usedArea ≤ s.usedArea) :
    jsSort sheetCmp (l ++ [r]) = jsSort sheetCmp l ++ [r] := by
  rw [jsSort, List.foldl_append]
  show insertSorted sheetCmp r (jsSort sheetCmp l) = jsSort sheetCmp l ++ [r]
  apply insertSorted_eq_append
  intro y hy
  have hy2 : y ∈ l := (jsSort_perm sheetCmp l).subset hy
  rw [sheetCmp]
  have h2 := h y hy2
  linarith

/-! ### Consolidation termination: zip-and-flags counting -/

theorem zipFlags_length :
    ∀ (ps : List PlacedPiece) (bs : List Bool), ps.length = bs.length →
      ((ps.zip bs).filterMap fun pf => if pf.2 then none else some pf.1).length
        + (bs.filter id).length = ps.length := by
  intro ps
  induction ps with
  | nil =>
      intro bs h
      have hb : bs = [] := List.length_eq_zero.mp h.symm
      subst hb
      simp
  | cons p ps ih =>
      intro bs h
      cases bs with
      | nil => exact absurd h (by simp)
      | cons b bs =>
          have h2 : ps.length = bs.length := by
            rw [List.length_cons, List.length_cons] at h
            omega
          have h3 := ih bs h2
          cases b with
          | true =>
              simp
              omega
          | false =>
              simp
              omega

theorem zipFlags_sublist :
    ∀ (ps : List PlacedPiece) (bs : List Bool),
      ((ps.zip bs).filterMap fun pf => if pf.2 then none else some pf.1).Sublist ps := by
  intro ps
  induction ps with
  | nil => exact fun bs => List.nil_sublist _
  | cons p ps ih =>
      intro bs
      cases bs with
      | nil => exact List.nil_sublist _
      | cons b bs =>
          cases b with
          | true =>
              simp only [List.zip_cons_cons, List.filterMap_cons]
              exact List.Sublist.cons p (ih bs)
          | false =>
              simp only [List.zip_cons_cons, List.filterMap_cons]
              exact List.Sublist.cons₂ p (ih bs)

/-! ### Consolidation termination: effect of a single placement -/

theorem tryPlace_eq {cfg : Config} {piece : Piece} {sheet : Sheet} {heu : Heuristic}
    {s2 : Sheet} (h : tryPlace cfg piece sheet heu = some s2) :
    ∃ fit, findBestFit cfg sheet piece.width piece.height heu = some fit ∧
      s2.pieces = sheet.pieces ++
        [⟨fit.rect.x, fit.rect.y, fit.w, fit.h, fit.rotated, piece.id, piece.width,
          piece.height⟩] ∧
      s2.usedArea = sheet.usedArea + fit.w * fit.h := by
  rw [tryPlace] at h
  cases hf : findBestFit cfg sheet piece.width piece.height heu with
  | none =>
      rw [hf] at h
      exact Option.noConfusion h
  | some fit =>
      rw [hf] at h
      injection h with h
      subst h
      exact ⟨fit, rfl, rfl, rfl⟩

theorem tryPlace_usedArea_eq {cfg : Config} {piece : Piece} {sheet s2 : Sheet}
    {heu : Heuristic} (h : tryPlace cfg piece sheet heu = some s2) :
    s2.usedArea = sheet.usedArea + piece.width * piece.height ∧
    s2.pieces.length = sheet.pieces.length + 1 := by
  obtain ⟨fit, hf, hp, hu⟩ := tryPlace_eq h
  obtain ⟨hdims, _, _⟩ := orientOk_dims (findBestFit_some_spec _ _ _ _ _ fit hf).2.1
  constructor
  · rw [hu]
    rcases hdims with ⟨e1, e2⟩ | ⟨e1, e2⟩
    · rw [e1, e2]
    · rw [e1, e2, mul_comm]
  · rw [hp]
    simp

theorem tryPlace_usedArea_le {cfg : Config} {piece : Piece} {sheet s2 : Sheet}
    {heu : Heuristic} (hw : 0 ≤ piece.width) (hh : 0 ≤ piece.height)
    (h : tryPlace cfg piece sheet heu = some s2) :
    sheet.usedArea ≤ s2.usedArea := by
  rw [(tryPlace_usedArea_eq h).1]
  have h2 : 0 ≤ piece.width * piece.height := mul_nonneg hw hh
  linarith

theorem tryPlace_sheetAreaInv {cfg : Config} {piece : Piece} {sheet s2 : Sheet}
    {heu : Heuristic} (hw : 0 ≤ piece.width) (hh : 0 ≤ piece.height)
    (hs : SheetAreaInv sheet) (h : tryPlace cfg piece sheet heu = some s2) :
    SheetAreaInv s2 := by
  obtain ⟨fit, hf, hp, hu⟩ := tryPlace_eq h
  obtain ⟨hdims, _, _⟩ := orientOk_dims (findBestFit_some_spec _ _ _ _ _ fit hf).2.1
  have harea : fit.w * fit.h = piece.width * piece.height := by
    rcases hdims with ⟨e1, e2⟩ | ⟨e1, e2⟩
    · rw [e1, e2]
    · rw [e1, e2, mul_comm]
  have hwnn : 0 ≤ fit.w := by
    rcases hdims with ⟨e1, _⟩ | ⟨e1, _⟩ <;> rw [e1] <;> assumption
  have hhnn : 0 ≤ fit.h := by
    rcases hdims with ⟨_, e2⟩ | ⟨_, e2⟩ <;> rw [e2] <;> assumption
  constructor
  · rw [hu, hp, List.map_append, List.sum_append, hs.1]
    simp
  · intro p hp2
    rw [hp] at hp2
    rcases List.mem_append.mp hp2 with h1 | h1
    · exact hs.2 p h1
    · rw [List.mem_singleton] at h1
      subst h1
      exact ⟨hwnn, hhnn, hw, hh, harea⟩

/-! ### Consolidation termination: the move pass -/

theorem tryMoveAux_eq {cfg : Config} {fp : Piece} {sheets : List Sheet} :
    ∀ {idxs : List Nat} {sheets2 : List Sheet},
      tryMoveAux cfg fp sheets idxs = some sheets2 →
      sheets2 = sheets ∨ ∃ si ∈ idxs, ∃ sh2,
        tryPlace cfg fp (sheets.getD si default) .bssf = some sh2 ∧
        sheets2 = sheets.set si sh2 := by
  intro idxs
  induction idxs with
  | nil => exact fun h => Option.noConfusion h
  | cons si rest ih =>
      intro sheets2 h
      rw [tryMoveAux] at h
      by_cases hf : (findBestFit cfg (sheets.getD si default) fp.width fp.height
          .bssf).isSome = true
      · rw [if_pos hf] at h
        injection h with h
        cases htp : tryPlace cfg fp (sheets.getD si default) .bssf with
        | none =>
            rw [htp] at h
            exact Or.inl h.symm
        | some sh2 =>
            rw [htp] at h
            exact Or.inr ⟨si, List.mem_cons_self si rest, sh2, htp, h.symm⟩
      · rw [if_neg hf] at h
        rcases ih h with h1 | ⟨si2, hsi2, sh2, htp, he⟩
        · exact Or.inl h1
        · exact Or.inr ⟨si2, List.mem_cons_of_mem si hsi2, sh2, htp, he⟩

theorem tryMoveAux_spec {cfg : Config} {fp : Piece} {sheets sheets2 : List Sheet}
    {idxs : List Nat} (hidx : ∀ si ∈ idxs, si + 1 < sheets.length)
    (hw : 0 ≤ fp.width) (hh : 0 ≤ fp.height) (hinv : ConsInv sheets)
    (h : tryMoveAux cfg fp sheets idxs = some sheets2) :
    ConsInv sheets2 ∧
    List.Forall₂ (fun a b => b.usedArea ≤ a.usedArea) sheets2 sheets ∧
    sheets2.getLast? = sheets.getLast? ∧
    totalPieces sheets2 ≤ totalPieces sheets + 1 := by
  rcases tryMoveAux_eq h with rfl | ⟨si, hsi, sh2, htp, rfl⟩
  · exact ⟨hinv, forall2_refl_usedArea _, rfl, Nat.le_succ _⟩
  · have hsil : si + 1 < sheets.length := hidx si hsi
    have hsl : si < sheets.length := by omega
    have hinvsi : SheetAreaInv (sheets.getD si default) := hinv _ (getD_mem hsl)
    refine ⟨?_, forall2_set_usedArea (tryPlace_usedArea_le hw hh htp),
      getLast?_set hsil, ?_⟩
    · intro s hs
      rcases List.mem_or_eq_of_mem_set hs with hs | hs
      · exact hinv _ hs
      · exact hs ▸ tryPlace_sheetAreaInv hw hh hinvsi htp
    · have hts := totalPieces_set (l := sheets) (x := sh2) hsl
      have hlen2 := (tryPlace_usedArea_eq htp).2
      omega

theorem movePass_spec {cfg : Config} :
    ∀ (ps : List PlacedPiece) (sheets : List Sheet), (∀ p ∈ ps, PieceInv p) →
      ConsInv sheets →
      ConsInv (movePass cfg ps sheets).1 ∧
      List.Forall₂ (fun a b => b.usedArea ≤ a.usedArea) (movePass cfg ps sheets).1 sheets ∧
      (movePass cfg ps sheets).1.getLast? = sheets.getLast? ∧
      totalPieces (movePass cfg ps sheets).1 ≤
        totalPieces sheets + ((movePass cfg ps sheets).2.filter id).length ∧
      (movePass cfg ps sheets).2.length = ps.length := by
  intro ps
  induction ps with
  | nil =>
      intro sheets _ hinv
      exact ⟨hinv, forall2_refl_usedArea _, rfl, Nat.le_add_right _ _, rfl⟩
  | cons p ps ih =>
      intro sheets hps hinv
      have hptail : ∀ q ∈ ps, PieceInv q := fun q hq => hps q (List.mem_cons_of_mem p hq)
      have hpI : PieceInv p := hps p (List.mem_cons_self p ps)
      cases hm : tryMoveAux cfg (fakePiece p) sheets (List.range (sheets.length - 1)) with
      | none =>
          have h1 : movePass cfg (p :: ps) sheets =
              ((movePass cfg ps sheets).1, false :: (movePass cfg ps sheets).2) := by
            rw [movePass, hm]
          obtain ⟨ia, ib, ic, id2, ie⟩ := ih sheets hptail hinv
          rw [h1]
          dsimp only
          refine ⟨ia, ib, ic, ?_, ?_⟩
          · have hfl : ((false :: (movePass cfg ps sheets).2).filter id).length =
                ((movePass cfg ps sheets).2.filter id).length := by simp
            omega
          · simp [ie]
      | some sheets2 =>
          have h1 : movePass cfg (p :: ps) sheets =
              ((movePass cfg ps sheets2).1, true :: (movePass cfg ps sheets2).2) := by
            rw [movePass, hm]
          have hidx : ∀ si ∈ List.range (sheets.length - 1), si + 1 < sheets.length := by
            intro si hsi
            rw [List.mem_range] at hsi
            omega
          obtain ⟨j1, j2, j3, j4⟩ :=
            tryMoveAux_spec hidx hpI.2.2.1 hpI.2.2.2.1 hinv hm
          obtain ⟨ia, ib, ic, id2, ie⟩ := ih sheets2 hptail j1
          rw [h1]
          dsimp only
          refine ⟨ia, forall2_trans_usedArea ib j2, ic.trans j3, ?_, ?_⟩
          · have hfl : ((true :: (movePass cfg ps sheets2).2).filter id).length =
                ((movePass cfg ps sheets2).2.filter id).length + 1 := by simp
            omega
          · simp [ie]

/-! ### Consolidation termination: the rebuilt sheet -/

theorem rebuildSheet_spec (cfg : Config) (remaining : List PlacedPiece)
    (hrem : ∀ p ∈ remaining, PieceInv p) :
    SheetAreaInv (rebuildSheet cfg remaining) ∧
    (rebuildSheet cfg remaining).pieces.length ≤ remaining.length ∧
    (rebuildSheet cfg remaining).usedArea ≤
      (remaining.map fun p => p.origW * p.origH).sum := by
  rw [rebuildSheet]
  have haux : ∀ (l : List PlacedPiece) (sh : Sheet), (∀ p ∈ l, PieceInv p) →
      SheetAreaInv sh →
      SheetAreaInv (l.foldl (fun sh p =>
        match tryPlace cfg (fakePiece p) sh .bssf with
        | some sh2 => sh2
        | none => sh) sh) ∧
      (l.foldl (fun sh p =>
        match tryPlace cfg (fakePiece p) sh .bssf with
        | some sh2 => sh2
        | none => sh) sh).pieces.length ≤ sh.pieces.length + l.length ∧
      (l.foldl (fun sh p =>
        match tryPlace cfg (fakePiece p) sh .bssf with
        | some sh2 => sh2
        | none => sh) sh).usedArea ≤
        sh.usedArea + (l.map fun p => p.origW * p.origH).sum := by
    intro l
    induction l with
    | nil =>
        intro sh _ hsh
        refine ⟨hsh, Nat.le_add_right _ _, ?_⟩
        simp
    | cons p rest ih =>
        intro sh hl hsh
        have hpI : PieceInv p := hl p (List.mem_cons_self p rest)
        have hann : 0 ≤ p.origW * p.origH := mul_nonneg hpI.2.2.1 hpI.2.2.2.1
        rw [List.foldl_cons]
        have hlc : (p :: rest).length = rest.length + 1 := rfl
        cases htp : tryPlace cfg (fakePiece p) sh .bssf with
        | none =>
            simp only [htp]
            obtain ⟨ia, ib, ic⟩ := ih sh (fun q hq => hl q (List.mem_cons_of_mem p hq)) hsh
            refine ⟨ia, by omega, ?_⟩
            rw [List.map_cons, List.sum_cons]
            linarith
        | some sh2 =>
            simp only [htp]
            have hinv2 : SheetAreaInv sh2 :=
              tryPlace_sheetAreaInv hpI.2.2.1 hpI.2.2.2.1 hsh htp
            obtain ⟨hu2, hl2⟩ := tryPlace_usedArea_eq htp
            obtain ⟨ia, ib, ic⟩ := ih sh2 (fun q hq => hl q (List.mem_cons_of_mem p hq)) hinv2
            refine ⟨ia, by omega, ?_⟩
            rw [List.map_cons, List.sum_cons]
            have hu3 : sh2.usedArea = sh.usedArea + p.origW * p.origH := hu2
            linarith
  have hnew : SheetAreaInv (newSheet cfg) :=
    ⟨rfl, fun p hp => absurd hp (List.not_mem_nil p)⟩
  obtain ⟨ha, hb, hc⟩ := haux remaining (newSheet cfg) hrem hnew
  have hnp : (newSheet cfg).pieces.length = 0 := rfl
  refine ⟨ha, by omega, ?_⟩
  have hz : (newSheet cfg).usedArea = 0 := rfl
  rw [hz] at hc
  linarith

/-! ### Consolidation termination: one loop iteration decreases the measure -/

theorem consMeasure_pop_lt {L T u v k : Nat} (hL : 2 ≤ L) (h1 : u ≤ T) (h2 : v ≤ u) :
    (L - 1) * (u + 1) + v < L * (T + 1) + k := by
  have h3 : (L - 1) * (u + 1) ≤ (L - 1) * (T + 1) := Nat.mul_le_mul (le_refl _) (by omega)
  have h4 : (L - 1) * (T + 1) + (T + 1) = L * (T + 1) := by
    have h5 : L - 1 + 1 = L := by omega
    calc (L - 1) * (T + 1) + (T + 1) = (L - 1 + 1) * (T + 1) := by ring
      _ = L * (T + 1) := by rw [h5]
  omega

theorem consMeasure_rebuild_lt {L T u v k : Nat} (h1 : u ≤ T) (h2 : v < k) :
    L * (u + 1) + v < L * (T + 1) + k := by
  have h3 : L * (u + 1) ≤ L * (T + 1) := Nat.mul_le_mul (le_refl _) (by omega)
  omega

theorem consIter_spec {cfg : Config} {sheets : List Sheet} (hinv : ConsInv sheets)
    (hlen : 1 < sheets.length) (himp : (consIter cfg sheets).2 = true) :
    ConsInv (consIter cfg sheets).1 ∧
    consMeasure (consIter cfg sheets).1 < consMeasure sheets := by
  have hperm := jsSort_perm sheetCmp sheets
  have hlenS : (jsSort sheetCmp sheets).length = sheets.length := jsSort_length _ _
  have hinvS : ConsInv (jsSort sheetCmp sheets) := fun s hs => hinv s (hperm.subset hs)
  have hTsort : totalPieces (jsSort sheetCmp sheets) = totalPieces sheets :=
    totalPieces_perm hperm
  cases hL : (jsSort sheetCmp sheets).getLast? with
  | none =>
      have hiter : consIter cfg sheets = (jsSort sheetCmp sheets, false) := by
        rw [consIter, hL]
      rw [hiter] at himp
      exact absurd himp (by simp)
  | some lastSheet =>
      have hlmem : lastSheet ∈ jsSort sheetCmp sheets := getLast?_mem_list hL
      have hlinv : SheetAreaInv lastSheet := hinvS lastSheet hlmem
      have hps : ∀ p ∈ lastSheet.pieces, PieceInv p := hlinv.2
      obtain ⟨hMPinv, hMPfa, hMPlast, hMPtp, hMPflen⟩ :=
        movePass_spec lastSheet.pieces (jsSort sheetCmp sheets) hps hinvS
      have hlsc : lastSortedCount sheets = lastSheet.pieces.length := by
        rw [lastSortedCount, hL]
      by_cases h0 : ((movePass cfg lastSheet.pieces (jsSort sheetCmp sheets)).2.filter
          id).length = 0
      · have hiter : consIter cfg sheets = (jsSort sheetCmp sheets, false) := by
          rw [consIter, hL]
          dsimp only
          rw [if_pos h0]
        rw [hiter] at himp
        exact absurd himp (by simp)
      · have hMPlast2 :
            (movePass cfg lastSheet.pieces (jsSort sheetCmp sheets)).1.getLast? =
              some lastSheet := by
          rw [hMPlast, hL]
        have hdrop := totalPieces_dropLast hMPlast2
        by_cases h1 : ((movePass cfg lastSheet.pieces (jsSort sheetCmp sheets)).2.filter
            id).length = lastSheet.pieces.length
        · have hiter : consIter cfg sheets =
              ((movePass cfg lastSheet.pieces (jsSort sheetCmp sheets)).1.dropLast,
                true) := by
            rw [consIter, hL]
            dsimp only
            rw [if_neg h0, if_pos h1]
          rw [hiter]
          dsimp only
          refine ⟨fun s hs => hMPinv s ((List.dropLast_sublist _).subset hs), ?_⟩
          have hlscle := lastSortedCount_le_totalPieces
            (movePass cfg lastSheet.pieces (jsSort sheetCmp sheets)).1.dropLast
          have hlen2 :
              (movePass cfg lastSheet.pieces (jsSort sheetCmp sheets)).1.dropLast.length =
                sheets.length - 1 := by
            rw [List.length_dropLast, movePass_length, hlenS]
          rw [consMeasure, consMeasure, hlsc, hlen2]
          apply consMeasure_pop_lt
          · omega
          · omega
          · exact hlscle
        · have hiter : consIter cfg sheets =
              ((movePass cfg lastSheet.pieces (jsSort sheetCmp sheets)).1.dropLast ++
                [rebuildSheet cfg ((lastSheet.pieces.zip
                  (movePass cfg lastSheet.pieces (jsSort sheetCmp sheets)).2).filterMap
                    fun pf => if pf.2 then none else some pf.1)], true) := by
            rw [consIter, hL]
            dsimp only
            rw [if_neg h0, if_neg h1]
          rw [hiter]
          dsimp only
          have hremP : ∀ p ∈ (lastSheet.pieces.zip
              (movePass cfg lastSheet.pieces (jsSort sheetCmp sheets)).2).filterMap
                (fun pf => if pf.2 then none else some pf.1), PieceInv p :=
            fun p hp => hps p ((zipFlags_sublist _ _).subset hp)
          obtain ⟨hRBinv, hRBlen, hRBused0⟩ := rebuildSheet_spec cfg _ hremP
          have hremlen := zipFlags_length lastSheet.pieces
            (movePass cfg lastSheet.pieces (jsSort sheetCmp sheets)).2 hMPflen.symm
          have hm1 : 1 ≤ ((movePass cfg lastSheet.pieces
              (jsSort sheetCmp sheets)).2.filter id).length :=
            Nat.one_le_iff_ne_zero.mpr h0
          have horig_eq : (((lastSheet.pieces.zip
              (movePass cfg lastSheet.pieces (jsSort sheetCmp sheets)).2).filterMap
                fun pf => if pf.2 then none else some pf.1).map
                  fun p => p.origW * p.origH) =
              ((lastSheet.pieces.zip
                (movePass cfg lastSheet.pieces (jsSort sheetCmp sheets)).2).filterMap
                  fun pf => if pf.2 then none else some pf.1).map fun p => p.w * p.h :=
            List.map_congr_left fun p hp => (hremP p hp).2.2.2.2.symm
          have hsum_le : (((lastSheet.pieces.zip
              (movePass cfg lastSheet.pieces (jsSort sheetCmp sheets)).2).filterMap
                fun pf => if pf.2 then none else some pf.1).map
                  fun p => p.w * p.h).sum ≤
              (lastSheet.pieces.map fun p => p.w * p.h).sum := by
            refine List.Sublist.sum_le_sum ((zipFlags_sublist _ _).map _) ?_
            intro a ha
            rw [List.mem_map] at ha
            obtain ⟨p, hp2, he⟩ := ha
            rw [← he]
            exact mul_nonneg (hps p hp2).1 (hps p hp2).2.1
          have hRBused : (rebuildSheet cfg ((lastSheet.pieces.zip
              (movePass cfg lastSheet.pieces (jsSort sheetCmp sheets)).2).filterMap
                fun pf => if pf.2 then none else some pf.1)).usedArea ≤
              lastSheet.usedArea := by
            rw [horig_eq] at hRBused0
            rw [hlinv.1]
            linarith
          have hminMP : ∀ s ∈ (movePass cfg lastSheet.pieces
              (jsSort sheetCmp sheets)).1.dropLast,
              (rebuildSheet cfg ((lastSheet.pieces.zip
                (movePass cfg lastSheet.pieces (jsSort sheetCmp sheets)).2).filterMap
                  fun pf => if pf.2 then none else some pf.1)).usedArea ≤ s.usedArea := by
            intro s hs
            obtain ⟨t, ht, hle⟩ := forall2_exists_right hMPfa s
              ((List.dropLast_sublist _).subset hs)
            have hmin := pairwise_getLast_min (jsSort_sheetCmp_pairwise sheets) hL t ht
            linarith
          have hlsc3 : lastSortedCount
              ((movePass cfg lastSheet.pieces (jsSort sheetCmp sheets)).1.dropLast ++
                [rebuildSheet cfg ((lastSheet.pieces.zip
                  (movePass cfg lastSheet.pieces (jsSort sheetCmp sheets)).2).filterMap
                    fun pf => if pf.2 then none else some pf.1)]) =
              (rebuildSheet cfg ((lastSheet.pieces.zip
                (movePass cfg lastSheet.pieces (jsSort sheetCmp sheets)).2).filterMap
                  fun pf => if pf.2 then none else some pf.1)).pieces.length := by
            rw [lastSortedCount, jsSort_min_last hminMP, List.getLast?_concat]
          have hT3eq : totalPieces
              ((movePass cfg lastSheet.pieces (jsSort sheetCmp sheets)).1.dropLast ++
                [rebuildSheet cfg ((lastSheet.pieces.zip
                  (movePass cfg lastSheet.pieces (jsSort sheetCmp sheets)).2).filterMap
                    fun pf => if pf.2 then none else some pf.1)]) =
              totalPieces (movePass cfg lastSheet.pieces
                (jsSort sheetCmp sheets)).1.dropLast +
              (rebuildSheet cfg ((lastSheet.pieces.zip
                (movePass cfg lastSheet.pieces (jsSort sheetCmp sheets)).2).filterMap
                  fun pf => if pf.2 then none else some pf.1)).pieces.length := by
            rw [totalPieces_append, totalPieces_cons]
            simp [totalPieces]
          have hlen3 :
              ((movePass cfg lastSheet.pieces (jsSort sheetCmp sheets)).1.dropLast ++
                [rebuildSheet cfg ((lastSheet.pieces.zip
                  (movePass cfg lastSheet.pieces (jsSort sheetCmp sheets)).2).filterMap
                    fun pf => if pf.2 then none else some pf.1)]).length =
              sheets.length := by
            rw [List.length_append, List.length_dropLast, movePass_length, hlenS]
            have h2 : ([rebuildSheet cfg ((lastSheet.pieces.zip
                (movePass cfg lastSheet.pieces (jsSort sheetCmp sheets)).2).filterMap
                  fun pf => if pf.2 then none else some pf.1)] : List Sheet).length = 1 :=
              rfl
            omega
          refine ⟨?_, ?_⟩
          · intro s hs
            rcases List.mem_append.mp hs with hs | hs
            · exact hMPinv s ((List.dropLast_sublist _).subset hs)
            · rw [List.mem_singleton] at hs
              exact hs ▸ hRBinv
          · rw [consMeasure, consMeasure, hlsc, hlsc3, hlen3, hT3eq]
            apply consMeasure_rebuild_lt
            · omega
            · omega

/-! ### Consolidation termination: the fueled loop exits -/

theorem consolidateGo_isSome {cfg : Config} :
    ∀ (n : Nat) (sheets : List Sheet), ConsInv sheets → consMeasure sheets < n →
      ∃ out, consolidateGo cfg n sheets = some out := by
  intro n
  induction n with
  | zero => exact fun sheets _ h => absurd h (Nat.not_lt_zero _)
  | succ n ih =>
      intro sheets hinv hm
      rw [consolidateGo]
      by_cases h1 : sheets.length ≤ 1
      · rw [if_pos h1]
        exact ⟨sheets, rfl⟩
      · rw [if_neg h1]
        by_cases h2 : (consIter cfg sheets).2 = true
        · rw [if_pos h2]
          obtain ⟨hinv2, hdec⟩ := consIter_spec hinv (by omega) h2
          exact ih _ hinv2 (by omega)
        · rw [if_neg h2]
          exact ⟨_, rfl⟩

theorem consolidateGo_fuel {cfg : Config} :
    ∀ (n m : Nat) (sheets : List Sheet), ConsInv sheets → consMeasure sheets < n →
      consMeasure sheets < m → consolidateGo cfg n sheets = consolidateGo cfg m sheets := by
  intro n
  induction n with
  | zero => exact fun m sheets _ h _ => absurd h (Nat.not_lt_zero _)
  | succ n ih =>
      intro m sheets hinv hn hm
      cases m with
      | zero => exact absurd hm (Nat.not_lt_zero _)
      | succ m =>
          rw [consolidateGo, consolidateGo]
          by_cases h1 : sheets.length ≤ 1
          · rw [if_pos h1, if_pos h1]
          · rw [if_neg h1, if_neg h1]
            by_cases h2 : (consIter cfg sheets).2 = true
            · rw [if_pos h2, if_pos h2]
              obtain ⟨hinv2, hdec⟩ := consIter_spec hinv (by omega) h2
              exact ih m _ hinv2 (by omega) (by omega)
            · rw [if_neg h2, if_neg h2]

/-! ### Consolidation termination: the invariant holds for engine states -/

theorem getD_sheetAreaInv {sheets : List Sheet} (h : ConsInv sheets) (i : Nat) :
    SheetAreaInv (sheets.getD i default) := by
  induction sheets generalizing i with
  | nil => exact ⟨rfl, fun p hp => absurd hp (List.not_mem_nil p)⟩
  | cons s t ih =>
      match i with
      | 0 => exact h s (List.mem_cons_self s t)
      | j + 1 => exact ih (fun x hx => h x (List.mem_cons_of_mem s hx)) j

theorem stratStep_consInv {cfg : Config} {heu : Heuristic} {st : StratResult}
    {piece : Piece} (hw : 0 ≤ piece.width) (hh : 0 ≤ piece.height)
    (hinv : ConsInv st.sheets) : ConsInv (stratStep cfg heu st piece).sheets := by
  rw [stratStep]
  by_cases hfit : (piece.width ≤ cfg.sheetW ∧ piece.height ≤ cfg.sheetH) ∨
      (piece.height ≤ cfg.sheetW ∧ piece.width ≤ cfg.sheetH)
  · rw [if_pos hfit]
    cases hch : chooseSheet cfg st.sheets piece.width piece.height heu with
    | none =>
        by_cases hcap : cfg.maxSheets ≤ (st.sheets.length : ℚ)
        · rw [if_pos hcap]
          exact hinv
        · rw [if_neg hcap]
          cases htp : tryPlace cfg piece (newSheet cfg) heu with
          | none => exact hinv
          | some s =>
              intro x hx
              rcases List.mem_append.mp hx with hx | hx
              · exact hinv x hx
              · rw [List.mem_singleton] at hx
                subst hx
                exact tryPlace_sheetAreaInv hw hh
                  ⟨rfl, fun p hp => absurd hp (List.not_mem_nil p)⟩ htp
    | some c =>
        obtain ⟨sc, i⟩ := c
        cases htp : tryPlace cfg piece (st.sheets.getD i default) heu with
        | none =>
            simp only [htp]
            exact hinv
        | some sh =>
            simp only [htp]
            intro x hx
            rcases List.mem_or_eq_of_mem_set hx with hx | hx
            · exact hinv x hx
            · subst hx
              exact tryPlace_sheetAreaInv hw hh (getD_sheetAreaInv hinv i) htp
  · rw [if_neg hfit]
    exact hinv

theorem runStrategy_consInv {cfg : Config} {heu : Heuristic} (sorted : List Piece)
    (hp : ∀ p ∈ sorted, 0 ≤ p.width ∧ 0 ≤ p.height) :
    ConsInv (runStrategy cfg sorted heu).sheets := by
  rw [runStrategy]
  have haux : ∀ (l : List Piece) (st : StratResult),
      (∀ p ∈ l, 0 ≤ p.width ∧ 0 ≤ p.height) → ConsInv st.sheets →
      ConsInv (l.foldl (stratStep cfg heu) st).sheets := by
    intro l
    induction l with
    | nil => exact fun st _ h => h
    | cons p ps ih =>
        intro st hl h
        rw [List.foldl_cons]
        exact ih _ (fun q hq => hl q (List.mem_cons_of_mem p hq))
          (stratStep_consInv (hl p (List.mem_cons_self p ps)).1
            (hl p (List.mem_cons_self p ps)).2 h)
  exact haux sorted ⟨[], []⟩ hp fun s hs => absurd hs (List.not_mem_nil s)

theorem winner_consInv {cfg : Config} {pieces : List Piece}
    (hp : ∀ p ∈ pieces, 0 ≤ p.width ∧ 0 ≤ p.height) :
    ConsInv (winner cfg pieces).sheets := by
  rw [winner]
  cases hpb : pickBest cfg (allResults cfg pieces) with
  | none =>
      intro s hs
      exact absurd hs (List.not_mem_nil s)
  | some b =>
      obtain ⟨f, _, heu, _, he⟩ := allResults_mem (pickBest_mem hpb)
      subst he
      exact runStrategy_consInv _ fun p hm => hp p ((jsSort_perm f pieces).subset hm)

/-! ### Claim C5: the consolidation loop terminates -/

/-- C5: the consolidation post-pass terminates on every valid input.  On
the strategy-grid winner for pieces with positive dimensions, the
consolidation loop reaches an exit (the one-sheet guard or a pass that
moves zero pieces) within `consMeasure` iterations: running it with any
fuel beyond that bound yields the same final sheet list, and the engine's
own `consolidateSheets` call returns that fixed point, never the
fuel-exhaustion fallback. -/
theorem c5_consolidation_terminates (pieces : List Piece)
    (sheetW sheetH kerf maxSheets : ℚ)
    (hp : ∀ p ∈ pieces, 0 < p.width ∧ 0 < p.height) :
    ∃ out,
      (∀ n, consMeasure (winner ⟨sheetW, sheetH, kerf, maxSheets⟩ pieces).sheets < n →
        consolidateGo ⟨sheetW, sheetH, kerf, maxSheets⟩ n
          (winner ⟨sheetW, sheetH, kerf, maxSheets⟩ pieces).sheets = some out) ∧
      consolidateSheets ⟨sheetW, sheetH, kerf, maxSheets⟩
          (winner ⟨sheetW, sheetH, kerf, maxSheets⟩ pieces) =
        { winner ⟨sheetW, sheetH, kerf, maxSheets⟩ pieces with sheets := out } := by
  have hinv : ConsInv (winner ⟨sheetW, sheetH, kerf, maxSheets⟩ pieces).sheets :=
    winner_consInv fun p hm => ⟨(hp p hm).1.le, (hp p hm).2.le⟩
  obtain ⟨out, hout⟩ := consolidateGo_isSome
    (consMeasure (winner ⟨sheetW, sheetH, kerf, maxSheets⟩ pieces).sheets + 1) _ hinv
    (Nat.lt_succ_self _)
  refine ⟨out, ?_, ?_⟩
  · intro n hn
    rw [consolidateGo_fuel n
      (consMeasure (winner ⟨sheetW, sheetH, kerf, maxSheets⟩ pieces).sheets + 1) _ hinv hn
      (Nat.lt_succ_self _)]
    exact hout
  · have hfuel : consolidateGo ⟨sheetW, sheetH, kerf, maxSheets⟩
        (consFuel (winner ⟨sheetW, sheetH, kerf, maxSheets⟩ pieces).sheets)
        (winner ⟨sheetW, sheetH, kerf, maxSheets⟩ pieces).sheets = some out := by
      rw [consFuel]
      exact hout
    rw [consolidateSheets, hfuel]

/-- Witness for `c5_consolidation_terminates`: a 2 × 3 piece on a 10 × 10
sheet with kerf 0 and cap 5. -/
theorem c5_witness :
    ∃ out,
      (∀ n, consMeasure (winner ⟨10, 10, 0, 5⟩ [⟨1, 2, 3⟩]).sheets < n →
        consolidateGo ⟨10, 10, 0, 5⟩ n
          (winner ⟨10, 10, 0, 5⟩ [⟨1, 2, 3⟩]).sheets = some out) ∧
      consolidateSheets ⟨10, 10, 0, 5⟩ (winner ⟨10, 10, 0, 5⟩ [⟨1, 2, 3⟩]) =
        { winner ⟨10, 10, 0, 5⟩ [⟨1, 2, 3⟩] with sheets := out } :=
  c5_consolidation_terminates [⟨1, 2, 3⟩] 10 10 0 5
    (by
      intro p hp
      rw [List.mem_singleton] at hp
      subst hp
      exact ⟨by norm_num, by norm_num⟩)

end CutOpt
